import Mathlib

/-!
# Outbox message queue (`core/message_queue.go`)

A shallow embedding of `MessageQueue`: the per-sender queues of messages that were sent
but have not yet appeared in a block.

* The Go map `map[address.Address][]*QueuedMessage` is an association list read through
  `mapGet` (first binding of a key, the nil slice for an absent key), written through
  `mapSet` (`m[k] = v`) and `mapDelete` (`delete(m, k)`); `mapKeys` is what `range` visits.
* `types.Uint64` nonces and `uint64` stamps are natural numbers; the one addition of the
  code, `Nonce + 1`, is reduced modulo `2 ^ 64`.
* The mutex and the calls to the metrics gauges are left out: they are write-only and no
  result of any operation depends on them.
* Every operation takes the queue state and returns the new state next to its results.
-/

set_option linter.unusedSectionVars false

namespace Core

/-- Modulus of `types.Uint64` arithmetic. -/
def uint64Mod : Nat := 2 ^ 64

/-- The fields of `types.SignedMessage` used by the queue, `From` and `Nonce`; `Payload`
stands for everything else a message carries, which the queue never reads. The address type
`address.Address` is a parameter. -/
structure SignedMessage (Addr : Type) where
  From : Addr
  Nonce : Nat
  Payload : Nat
  deriving DecidableEq, Repr

/-- QueuedMessage is a message and the stamp it was enqueued with. -/
structure QueuedMessage (Addr : Type) where
  Msg : SignedMessage Addr
  Stamp : Nat
  deriving DecidableEq, Repr

/-- The values built by `errors.Errorf` in `Enqueue` and `RemoveNext`, with the arguments of
the format string. -/
inductive QueueError (Addr : Type) where
  | invalidNonce (got expected : Nat)
  | outOfOrder (sender : Addr) (headNonce expected : Nat)
  deriving DecidableEq, Repr

/-- MessageQueue stores an ordered list of messages per sending address. -/
structure MessageQueue (Addr : Type) where
  queues : List (Addr × List (QueuedMessage Addr))
  deriving DecidableEq, Repr

section GoMap

variable {K V : Type} [DecidableEq K]

/-- Go `m[k]` for a map of slices: the slice bound to `k`, the nil slice when `k` is absent. -/
def mapGet : List (K × List V) → K → List V
  | [], _ => []
  | (k', v) :: rest, k => if k' = k then v else mapGet rest k

/-- Go `m[k] = v`: rebinds `k` where it is bound, adds a binding otherwise. -/
def mapSet : List (K × List V) → K → List V → List (K × List V)
  | [], k, v => [(k, v)]
  | (k', v') :: rest, k, v => if k' = k then (k, v) :: rest else (k', v') :: mapSet rest k v

/-- Go `delete(m, k)`. -/
def mapDelete (m : List (K × List V)) (k : K) : List (K × List V) :=
  m.filter (fun e => decide (e.1 ≠ k))

/-- The keys a `range` over the map visits. -/
def mapKeys (m : List (K × List V)) : List K :=
  m.map Prod.fst

end GoMap

variable {Addr : Type} [DecidableEq Addr]

/-- NewMessageQueue constructs a new, empty queue. -/
def NewMessageQueue : MessageQueue Addr :=
  ⟨[]⟩

/-- Enqueue appends a new message for an address; on a non-empty queue the nonce has to be
the last nonce plus one. Returns the new state and the error, if any. -/
def MessageQueue.Enqueue (mq : MessageQueue Addr) (msg : SignedMessage Addr) (stamp : Nat) :
    MessageQueue Addr × Option (QueueError Addr) :=
  let q := mapGet mq.queues msg.From
  if h : 0 < q.length then
    let nextNonce := (q[q.length - 1].Msg.Nonce + 1) % uint64Mod
    if msg.Nonce ≠ nextNonce then
      (mq, some (QueueError.invalidNonce msg.Nonce nextNonce))
    else
      (⟨mapSet mq.queues msg.From (q ++ [⟨msg, stamp⟩])⟩, none)
  else
    (⟨mapSet mq.queues msg.From (q ++ [⟨msg, stamp⟩])⟩, none)

/-- RemoveNext pops the head of the sender's queue if it bears the expected nonce. Returns
the new state and the triple `(msg, found, err)`. -/
def MessageQueue.RemoveNext (mq : MessageQueue Addr) (sender : Addr) (expectedNonce : Nat) :
    MessageQueue Addr × Option (SignedMessage Addr) × Bool × Option (QueueError Addr) :=
  let q := mapGet mq.queues sender
  if h : 0 < q.length then
    let head := q[0]
    if expectedNonce = head.Msg.Nonce then
      (⟨mapSet mq.queues sender (q.drop 1)⟩, some head.Msg, true, none)
    else if expectedNonce > head.Msg.Nonce then
      (mq, none, false, some (QueueError.outOfOrder sender head.Msg.Nonce expectedNonce))
    else
      (mq, none, false, none)
  else
    (mq, none, false, none)

/-- Clear removes all messages for a single sender address. Returns the new state and
whether the queue was non-empty before being cleared. -/
def MessageQueue.Clear (mq : MessageQueue Addr) (sender : Addr) : MessageQueue Addr × Bool :=
  let q := mapGet mq.queues sender
  (⟨mapDelete mq.queues sender⟩, decide (0 < q.length))

/-- The inner loop of `ExpireBefore`: `expired[sender] = append(expired[sender], m.Msg)` for
every `m` of `q`. -/
def appendExpired (expired : List (Addr × List (SignedMessage Addr))) (sender : Addr)
    (q : List (QueuedMessage Addr)) : List (Addr × List (SignedMessage Addr)) :=
  q.foldl (fun e m => mapSet e sender (mapGet e sender ++ [m.Msg])) expired

/-- One iteration of the `range` loop of `ExpireBefore`, on the running queue state and the
running `expired` map. -/
def expireVisit (stamp : Nat)
    (st : MessageQueue Addr × List (Addr × List (SignedMessage Addr))) (sender : Addr) :
    MessageQueue Addr × List (Addr × List (SignedMessage Addr)) :=
  let q := mapGet st.1.queues sender
  if h : 0 < q.length then
    if q[0].Stamp < stamp then
      (⟨mapSet st.1.queues sender []⟩, appendExpired st.2 sender q)
    else st
  else st

/-- The loop of `ExpireBefore` run over the senders in the order given. -/
def MessageQueue.expireIn (mq : MessageQueue Addr) (order : List Addr) (stamp : Nat) :
    MessageQueue Addr × List (Addr × List (SignedMessage Addr)) :=
  order.foldl (expireVisit stamp) (mq, [])

/-- ExpireBefore clears the queue of any sender where the first message in the queue has a
stamp less than `stamp`. Returns the new state and the map of the expired queues. Go leaves
the order of a `range` over a map open; here the senders are visited in the order of
`mapKeys`, and `expireIn_queues_eq`, `expireIn_expired_eq` show that what is read from the
results is the same for every order that visits all the senders. -/
def MessageQueue.ExpireBefore (mq : MessageQueue Addr) (stamp : Nat) :
    MessageQueue Addr × List (Addr × List (SignedMessage Addr)) :=
  mq.expireIn (mapKeys mq.queues) stamp

/-- LargestNonce returns the nonce of the last message queued for an address, `(0, false)`
when there is none. -/
def MessageQueue.LargestNonce (mq : MessageQueue Addr) (sender : Addr) : Nat × Bool :=
  let q := mapGet mq.queues sender
  if h : 0 < q.length then
    (q[q.length - 1].Msg.Nonce, true)
  else
    (0, false)

/-- Queues returns the keys of the map. -/
def MessageQueue.Queues (mq : MessageQueue Addr) : List Addr :=
  mapKeys mq.queues

/-- The calls that change a queue. -/
inductive Call (Addr : Type) where
  | enqueue (msg : SignedMessage Addr) (stamp : Nat)
  | removeNext (sender : Addr) (expectedNonce : Nat)
  | clear (sender : Addr)
  | expireBefore (stamp : Nat)
  deriving DecidableEq, Repr

/-- The state after one call. -/
def MessageQueue.step (mq : MessageQueue Addr) : Call Addr → MessageQueue Addr
  | Call.enqueue msg stamp => (mq.Enqueue msg stamp).1
  | Call.removeNext sender expectedNonce => (mq.RemoveNext sender expectedNonce).1
  | Call.clear sender => (mq.Clear sender).1
  | Call.expireBefore stamp => (mq.ExpireBefore stamp).1

/-- The state reached from `NewMessageQueue()` by a sequence of calls. -/
def run (calls : List (Call Addr)) : MessageQueue Addr :=
  calls.foldl MessageQueue.step NewMessageQueue

/-- Adjacent entries carry consecutive nonces, the sum taken modulo `2 ^ 64`. -/
def Contiguous : List (QueuedMessage Addr) → Prop
  | [] => True
  | [_] => True
  | a :: b :: rest => b.Msg.Nonce = (a.Msg.Nonce + 1) % uint64Mod ∧ Contiguous (b :: rest)

/-- The test of the loop of `ExpireBefore` on a queue `q`: `len(q) > 0 && q[0].Stamp < stamp`. -/
def staleHead (stamp : Nat) : List (QueuedMessage Addr) → Bool
  | [] => false
  | head :: _ => decide (head.Stamp < stamp)

/-- List returns a copy of the list of messages queued for an address. -/
def MessageQueue.List (mq : MessageQueue Addr) (sender : Addr) : List (QueuedMessage Addr) :=
  let q := mapGet mq.queues sender
  q.map (fun qm => { Msg := qm.Msg, Stamp := qm.Stamp })

/-! ### The operations with the run-time checks of Go made explicit

The definitions above take a state whose map was made by `NewMessageQueue()` and a message
that is not nil, and they index a queue under the guard `0 < q.length`. The definitions
below follow the same source lines on what a caller can pass in Go: a `MessageQueue` value
whose map may be nil (the zero value `MessageQueue{}`) and a `*types.SignedMessage` that may
be nil, with every dereference, map assignment and slice access checked as the Go run time
checks it. The result `none` stands for a panic. Indices are Go `int`s. -/

/-- Go `q[i]`: `none` is the panic "index out of range". -/
def sliceIndex {α : Type} (q : List α) (i : Int) : Option α :=
  if 0 ≤ i ∧ i < (q.length : Int) then q[i.toNat]? else none

/-- Go `q[lo:]`: `none` is the panic "slice bounds out of range". -/
def sliceFrom {α : Type} (q : List α) (lo : Int) : Option (List α) :=
  if 0 ≤ lo ∧ lo ≤ (q.length : Int) then some (q.drop lo.toNat) else none

/-- Go `out[i] = v`: `none` is the panic "index out of range". -/
def sliceStore {α : Type} (out : List α) (i : Int) (v : α) : Option (List α) :=
  if 0 ≤ i ∧ i < (out.length : Int) then some (out.set i.toNat v) else none

/-- The loop `i := 0; for _, x := range xs { out[i] = f x; i++ }` of `Queues` and `List`, on
a slice `out` whose elements start as the zero value `none`. -/
def sliceFill {α β : Type} (f : α → β) (xs : List α) (out : List (Option β)) :
    Option (List (Option β)) :=
  (xs.foldlM (fun (st : List (Option β) × Int) x =>
    (sliceStore st.1 st.2 (some (f x))).map (fun out' => (out', st.2 + 1))) (out, 0)).map
    Prod.fst

/-- A `MessageQueue` value as a caller can hold it: `queues` is `none` for the nil map of the
zero value `MessageQueue{}` and `some m` for a map made by `make`. -/
structure RawQueue (Addr : Type) where
  queues : Option (List (Addr × List (QueuedMessage Addr)))
  deriving DecidableEq, Repr

/-- The state of the operations above as a `MessageQueue` value: its map is allocated. -/
def MessageQueue.raw (mq : MessageQueue Addr) : RawQueue Addr :=
  ⟨some mq.queues⟩

section GoNilMap

variable {K V : Type} [DecidableEq K]

/-- Go `m[k]` on a map that may be nil: a nil map reads as the empty map. -/
def rawGet : Option (List (K × List V)) → K → List V
  | none, _ => []
  | some m, k => mapGet m k

/-- Go `m[k] = v` on a map that may be nil: `none` is the panic "assignment to entry in nil
map". -/
def rawSet : Option (List (K × List V)) → K → List V → Option (Option (List (K × List V)))
  | none, _, _ => none
  | some m, k, v => some (some (mapSet m k v))

/-- Go `delete(m, k)` on a map that may be nil: a no-op on the nil map. -/
def rawDelete : Option (List (K × List V)) → K → Option (List (K × List V))
  | none, _ => none
  | some m, k => some (mapDelete m k)

/-- The keys a `range` visits on a map that may be nil: none on the nil map. -/
def rawKeys : Option (List (K × List V)) → List K
  | none => []
  | some m => mapKeys m

end GoNilMap

/-- Enqueue on a `MessageQueue` value and a message pointer, `none` for the nil pointer.
Checked: the dereference `msg.From` (lines 53 and 56), the access `q[len(q)-1]` and the
assignment `mq.queues[msg.From] = ...`. -/
def EnqueueChecked (mq : RawQueue Addr) (msg : Option (SignedMessage Addr)) (stamp : Nat) :
    Option (RawQueue Addr × Option (QueueError Addr)) :=
  match msg with
  | none => none
  | some m =>
    let q := rawGet mq.queues m.From
    if 0 < q.length then
      (sliceIndex q ((q.length : Int) - 1)).bind (fun last =>
        let nextNonce := (last.Msg.Nonce + 1) % uint64Mod
        if m.Nonce ≠ nextNonce then
          some (mq, some (QueueError.invalidNonce m.Nonce nextNonce))
        else
          (rawSet mq.queues m.From (q ++ [⟨m, stamp⟩])).map (fun qs => (⟨qs⟩, none)))
    else
      (rawSet mq.queues m.From (q ++ [⟨m, stamp⟩])).map (fun qs => (⟨qs⟩, none))

/-- RemoveNext on a `MessageQueue` value. Checked: the accesses `q[0]` and `q[1:]` and the
assignment `mq.queues[sender] = q[1:]`. -/
def RemoveNextChecked (mq : RawQueue Addr) (sender : Addr) (expectedNonce : Nat) :
    Option (RawQueue Addr × Option (SignedMessage Addr) × Bool × Option (QueueError Addr)) :=
  let q := rawGet mq.queues sender
  if 0 < q.length then
    (sliceIndex q 0).bind (fun head =>
      if expectedNonce = head.Msg.Nonce then
        (sliceFrom q 1).bind (fun tail =>
          (rawSet mq.queues sender tail).map (fun qs => (⟨qs⟩, some head.Msg, true, none)))
      else if expectedNonce > head.Msg.Nonce then
        some (mq, none, false,
          some (QueueError.outOfOrder sender head.Msg.Nonce expectedNonce))
      else
        some (mq, none, false, none))
  else
    some (mq, none, false, none)

/-- Clear on a `MessageQueue` value; `delete` does nothing on a nil map and no slice element
is accessed. -/
def ClearChecked (mq : RawQueue Addr) (sender : Addr) : Option (RawQueue Addr × Bool) :=
  let q := rawGet mq.queues sender
  some (⟨rawDelete mq.queues sender⟩, decide (0 < q.length))

/-- One iteration of the loop of `ExpireBefore`. Checked: the access `q[0]`, which `&&`
evaluates only when `len(q) > 0`, and the assignment `mq.queues[sender] = ...`. -/
def expireVisitChecked (stamp : Nat)
    (st : RawQueue Addr × List (Addr × List (SignedMessage Addr))) (sender : Addr) :
    Option (RawQueue Addr × List (Addr × List (SignedMessage Addr))) :=
  let q := rawGet st.1.queues sender
  if 0 < q.length then
    (sliceIndex q 0).bind (fun head =>
      if head.Stamp < stamp then
        (rawSet st.1.queues sender []).map (fun qs => (⟨qs⟩, appendExpired st.2 sender q))
      else some st)
  else some st

/-- ExpireBefore on a `MessageQueue` value; the `range` over a nil map visits nothing. -/
def ExpireBeforeChecked (mq : RawQueue Addr) (stamp : Nat) :
    Option (RawQueue Addr × List (Addr × List (SignedMessage Addr))) :=
  (rawKeys mq.queues).foldlM (expireVisitChecked stamp) (mq, [])

/-- LargestNonce on a `MessageQueue` value. Checked: the access `q[len(q)-1]`. -/
def LargestNonceChecked (mq : RawQueue Addr) (sender : Addr) : Option (Nat × Bool) :=
  let q := rawGet mq.queues sender
  if 0 < q.length then
    (sliceIndex q ((q.length : Int) - 1)).bind (fun last => some (last.Msg.Nonce, true))
  else
    some (0, false)

/-- Queues on a `MessageQueue` value. Checked: the stores `keys[i] = k` into
`make([]address.Address, len(mq.queues))`; `len` of a nil map is 0. -/
def QueuesChecked (mq : RawQueue Addr) : Option (List (Option Addr)) :=
  sliceFill (fun k => k) (rawKeys mq.queues)
    (List.replicate (rawKeys mq.queues).length none)

/-- List on a `MessageQueue` value. Checked: the stores `out[i] = &QueuedMessage{}` into
`make([]*QueuedMessage, len(q))`. -/
def ListChecked (mq : RawQueue Addr) (sender : Addr) :
    Option (List (Option (QueuedMessage Addr))) :=
  let q := rawGet mq.queues sender
  sliceFill (fun qm => ({ Msg := qm.Msg, Stamp := qm.Stamp } : QueuedMessage Addr)) q
    (List.replicate q.length none)

/-! ### Sequences of calls -/

/-- `Enqueue(msg, stamp)` called for each pair of the list in turn: the final state and the
errors returned, call by call. -/
def enqueueAll (mq : MessageQueue Addr) :
    List (SignedMessage Addr × Nat) → MessageQueue Addr × List (Option (QueueError Addr))
  | [] => (mq, [])
  | (msg, stamp) :: rest =>
    ((enqueueAll (mq.Enqueue msg stamp).1 rest).1,
      (mq.Enqueue msg stamp).2 :: (enqueueAll (mq.Enqueue msg stamp).1 rest).2)

/-- `RemoveNext(sender, n)` called for each nonce `n` of the list in turn: the final state
and the triples `(msg, found, err)` returned, call by call. -/
def removeAll (mq : MessageQueue Addr) (sender : Addr) :
    List Nat → MessageQueue Addr ×
      List (Option (SignedMessage Addr) × Bool × Option (QueueError Addr))
  | [] => (mq, [])
  | n :: rest =>
    ((removeAll (mq.RemoveNext sender n).1 sender rest).1,
      (mq.RemoveNext sender n).2 :: (removeAll (mq.RemoveNext sender n).1 sender rest).2)

/-! ### The queue in memory

`List` is the one operation whose result shares memory with the queue. For it the queue is
modelled once more with its pointers: `mq.queues[sender]` is a slice header over a backing
array of pointers to `QueuedMessage` records, and a record holds a pointer to a
`types.SignedMessage` and a stamp. -/

/-- A slice header `[]*QueuedMessage`: the backing array, the offset of the first element in
it, and the length. -/
structure Slice where
  array : Nat
  off : Nat
  len : Nat
  deriving DecidableEq, Repr

/-- The memory: `msgs p` is the `types.SignedMessage` at pointer `p`; `entries p` is the
`QueuedMessage` record at pointer `p`, given by its `Msg` pointer and its `Stamp`;
`arrays a` is the backing array `a`, a sequence of pointers to records; `nextEntry` is the
pointer the next `&QueuedMessage{}` returns and `nextArray` the array the next `make`
returns. -/
structure Heap (Addr : Type) where
  msgs : Nat → SignedMessage Addr
  entries : Nat → Nat × Nat
  nextEntry : Nat
  arrays : Nat → List Nat
  nextArray : Nat

/-- The map `map[address.Address][]*QueuedMessage` together with the memory it points to. -/
structure HeapQueue (Addr : Type) where
  heap : Heap Addr
  queues : List (Addr × Slice)

/-- The elements of a slice: the record pointers it spans in its backing array. -/
def Heap.elems (h : Heap Addr) (s : Slice) : List Nat :=
  ((h.arrays s.array).drop s.off).take s.len

/-- The entry read through a `*QueuedMessage` and its `Msg` pointer. -/
def Heap.load (h : Heap Addr) (p : Nat) : QueuedMessage Addr :=
  ⟨h.msgs (h.entries p).1, (h.entries p).2⟩

/-- Go `m[k]` on the map of slice headers: the nil slice, of length 0, for an absent key. -/
def sliceOf : List (Addr × Slice) → Addr → Slice
  | [], _ => ⟨0, 0, 0⟩
  | (k', v) :: rest, k => if k' = k then v else sliceOf rest k

/-- The queues as the operations read them: every slice replaced by the entries its
pointers lead to. -/
def HeapQueue.view (hq : HeapQueue Addr) : MessageQueue Addr :=
  ⟨hq.queues.map (fun e => (e.1, (hq.heap.elems e.2).map hq.heap.load))⟩

/-- The backing arrays of the queues and the records they point to were allocated. -/
def HeapQueue.Valid (hq : HeapQueue Addr) : Prop :=
  ∀ e ∈ hq.queues, e.2.array < hq.heap.nextArray ∧
    ∀ p ∈ hq.heap.elems e.2, p < hq.heap.nextEntry

/-- One iteration of the loop of `List`: `out[i] = &QueuedMessage{}` takes the next free
record and puts its pointer at the next place of `out`, `*out[i] = *qm` copies the record at
`qm`, that is its `Msg` pointer and its stamp, into it. -/
def listVisit (st : Heap Addr × List Nat) (qm : Nat) : Heap Addr × List Nat :=
  ({ msgs := st.1.msgs,
     entries := Function.update st.1.entries st.1.nextEntry (st.1.entries qm),
     nextEntry := st.1.nextEntry + 1,
     arrays := st.1.arrays,
     nextArray := st.1.nextArray },
    st.2 ++ [st.1.nextEntry])

/-- List on the queue in memory: `out` is a new backing array (`make`), filled by the loop
with pointers to new records. Returns the memory afterwards, with the map as it was, and the
slice header of `out`. -/
def HeapQueue.ListCopy (hq : HeapQueue Addr) (sender : Addr) : HeapQueue Addr × Slice :=
  let q := sliceOf hq.queues sender
  let r := (hq.heap.elems q).foldl listVisit (hq.heap, [])
  (⟨{ msgs := r.1.msgs,
      entries := r.1.entries,
      nextEntry := r.1.nextEntry,
      arrays := Function.update r.1.arrays r.1.nextArray r.2,
      nextArray := r.1.nextArray + 1 }, hq.queues⟩,
    ⟨hq.heap.nextArray, 0, r.2.length⟩)

/-- What a caller can do to the slice `out` that `List` returned. -/
inductive CallerWrite (Addr : Type) where
  /-- Reordering: `out[i], out[j] = out[j], out[i]`. -/
  | swap (i j : Nat)
  /-- Replacing an element by a new record: `out[i] = &QueuedMessage{Msg: m, Stamp: v}`. -/
  | replace (i m v : Nat)
  /-- The assignment `out[i].Stamp = v`. -/
  | stamp (i v : Nat)
  /-- The assignment `out[i].Msg = m` of another message pointer. -/
  | msg (i m : Nat)
  /-- A write to the message the entry refers to: `*out[i].Msg = v`. -/
  | viaMsg (i : Nat) (v : SignedMessage Addr)

/-- The writes that stay within the slice and its records: all but a write to a message. -/
def CallerWrite.onRecord : CallerWrite Addr → Bool
  | CallerWrite.viaMsg _ _ => false
  | _ => true

/-- Go `out[i]` read by the caller: `none` when the index is out of range. -/
def Heap.elem (h : Heap Addr) (out : Slice) (i : Nat) : Option Nat :=
  if i < out.len then (h.arrays out.array)[out.off + i]? else none

/-- Go `out[i] = p`; an index out of range writes nothing. -/
def Heap.setElem (h : Heap Addr) (out : Slice) (i p : Nat) : Heap Addr :=
  if i < out.len then
    { msgs := h.msgs,
      entries := h.entries,
      nextEntry := h.nextEntry,
      arrays := Function.update h.arrays out.array ((h.arrays out.array).set (out.off + i) p),
      nextArray := h.nextArray }
  else h

/-- The memory after one write of the caller; where Go panics on an index out of range the
memory stays as it was. -/
def Heap.callerWrite (h : Heap Addr) (out : Slice) : CallerWrite Addr → Heap Addr
  | CallerWrite.swap i j =>
    match h.elem out i, h.elem out j with
    | some a, some b => (h.setElem out i b).setElem out j a
    | _, _ => h
  | CallerWrite.replace i m v =>
    if i < out.len then
      Heap.setElem
        { msgs := h.msgs,
          entries := Function.update h.entries h.nextEntry (m, v),
          nextEntry := h.nextEntry + 1,
          arrays := h.arrays,
          nextArray := h.nextArray } out i h.nextEntry
    else h
  | CallerWrite.stamp i v =>
    match h.elem out i with
    | some p =>
      { msgs := h.msgs,
        entries := Function.update h.entries p ((h.entries p).1, v),
        nextEntry := h.nextEntry,
        arrays := h.arrays,
        nextArray := h.nextArray }
    | none => h
  | CallerWrite.msg i m =>
    match h.elem out i with
    | some p =>
      { msgs := h.msgs,
        entries := Function.update h.entries p (m, (h.entries p).2),
        nextEntry := h.nextEntry,
        arrays := h.arrays,
        nextArray := h.nextArray }
    | none => h
  | CallerWrite.viaMsg i v =>
    match h.elem out i with
    | some p =>
      { msgs := Function.update h.msgs (h.entries p).1 v,
        entries := h.entries,
        nextEntry := h.nextEntry,
        arrays := h.arrays,
        nextArray := h.nextArray }
    | none => h

/-- The queue after a sequence of writes of the caller to the slice `out`: the writes act on
the memory; the map itself is out of the caller's reach (the field `queues` is not
exported). -/
def HeapQueue.afterWrites (hq : HeapQueue Addr) (out : Slice) (ws : List (CallerWrite Addr)) :
    HeapQueue Addr :=
  ⟨ws.foldl (fun h w => h.callerWrite out w) hq.heap, hq.queues⟩

/-- What the memory `h'` keeps of the memory `h` while `List` and the caller write: the
messages, the records and the arrays that `h` had allocated; the array `h.nextArray`, the
one `List` returns, holds only records allocated later. -/
structure Keeps (h h' : Heap Addr) : Prop where
  msgs : h'.msgs = h.msgs
  entries : ∀ p, p < h.nextEntry → h'.entries p = h.entries p
  arrays : ∀ a, a < h.nextArray → h'.arrays a = h.arrays a
  fresh : ∀ p ∈ h'.arrays h.nextArray, h.nextEntry ≤ p
  next : h.nextEntry ≤ h'.nextEntry

/-! ## The Go map primitives -/

section GoMapLemmas

variable {K V : Type} [DecidableEq K]

theorem mapGet_mapSet (m : List (K × List V)) (k k' : K) (v : List V) :
    mapGet (mapSet m k v) k' = if k' = k then v else mapGet m k' := by
  induction m with
  | nil =>
    by_cases h : k' = k
    · simp [mapSet, mapGet, h]
    · have h' : ¬ k = k' := fun e => h e.symm
      simp [mapSet, mapGet, h, h']
  | cons e rest ih =>
    obtain ⟨a, b⟩ := e
    by_cases hak : a = k
    · subst hak
      by_cases h : k' = a
      · subst h
        simp [mapSet, mapGet]
      · have h' : ¬ a = k' := fun e => h e.symm
        simp [mapSet, mapGet, h, h']
    · by_cases h : k' = k
      · subst h
        simp [mapSet, mapGet, hak, ih]
      · by_cases hk' : a = k'
        · simp [mapSet, mapGet, hak, h, hk']
        · simp [mapSet, mapGet, hak, h, hk', ih]

theorem mapGet_mapDelete (m : List (K × List V)) (k k' : K) :
    mapGet (mapDelete m k) k' = if k' = k then [] else mapGet m k' := by
  induction m with
  | nil => simp [mapDelete, mapGet]
  | cons e rest ih =>
    obtain ⟨a, b⟩ := e
    unfold mapDelete at ih ⊢
    by_cases hak : a = k
    · subst hak
      by_cases h : k' = a
      · subst h
        simpa [mapGet, List.filter] using ih
      · have h' : ¬ a = k' := fun e => h e.symm
        simpa [mapGet, List.filter, h, h'] using ih
    · by_cases hk' : a = k'
      · subst hk'
        simp [mapGet, List.filter, hak]
      · simpa [mapGet, List.filter, hak, hk'] using ih

theorem mem_mapKeys_mapSet (m : List (K × List V)) (k k' : K) (v : List V) :
    k' ∈ mapKeys (mapSet m k v) ↔ k' = k ∨ k' ∈ mapKeys m := by
  induction m with
  | nil => simp [mapSet, mapKeys]
  | cons e rest ih =>
    obtain ⟨a, b⟩ := e
    unfold mapKeys at ih ⊢
    by_cases hak : a = k
    · subst hak
      simp [mapSet]
    · simp only [mapSet, hak, if_false, List.map_cons, List.mem_cons, ih]
      tauto

theorem mem_mapKeys_mapDelete (m : List (K × List V)) (k k' : K) :
    k' ∈ mapKeys (mapDelete m k) ↔ k' ≠ k ∧ k' ∈ mapKeys m := by
  unfold mapKeys mapDelete
  simp only [List.mem_map, List.mem_filter, decide_eq_true_eq]
  constructor
  · rintro ⟨e, ⟨he, hne⟩, rfl⟩
    exact ⟨hne, e, he, rfl⟩
  · rintro ⟨hne, e, he, rfl⟩
    exact ⟨e, ⟨he, hne⟩, rfl⟩

theorem mapGet_eq_nil_of_not_mem (m : List (K × List V)) (k : K) (h : k ∉ mapKeys m) :
    mapGet m k = [] := by
  induction m with
  | nil => rfl
  | cons e rest ih =>
    obtain ⟨a, b⟩ := e
    unfold mapKeys at ih h
    simp only [List.map_cons, List.mem_cons, not_or] at h
    have h' : ¬ a = k := fun e => h.1 e.symm
    simp [mapGet, h', ih h.2]

end GoMapLemmas

/-! ## The operations, by cases on the sender's queue -/

theorem Enqueue_of_nil (mq : MessageQueue Addr) (msg : SignedMessage Addr) (stamp : Nat)
    (h : mapGet mq.queues msg.From = []) :
    mq.Enqueue msg stamp = (⟨mapSet mq.queues msg.From [⟨msg, stamp⟩]⟩, none) := by
  simp [MessageQueue.Enqueue, h]

theorem Enqueue_of_getLast (mq : MessageQueue Addr) (msg : SignedMessage Addr) (stamp : Nat)
    (l : QueuedMessage Addr) (h : (mapGet mq.queues msg.From).getLast? = some l) :
    mq.Enqueue msg stamp =
      if msg.Nonce ≠ (l.Msg.Nonce + 1) % uint64Mod then
        (mq, some (QueueError.invalidNonce msg.Nonce ((l.Msg.Nonce + 1) % uint64Mod)))
      else
        (⟨mapSet mq.queues msg.From (mapGet mq.queues msg.From ++ [⟨msg, stamp⟩])⟩, none) := by
  have hne : mapGet mq.queues msg.From ≠ [] := by
    intro e
    simp [e] at h
  have hpos : 0 < (mapGet mq.queues msg.From).length := List.length_pos.mpr hne
  have hl : (mapGet mq.queues msg.From)[(mapGet mq.queues msg.From).length - 1] = l := by
    rw [List.getLast?_eq_getElem?, List.getElem?_eq_getElem (by omega)] at h
    exact Option.some.inj h
  simp only [MessageQueue.Enqueue, hpos, dite_true, hl]

theorem RemoveNext_of_nil (mq : MessageQueue Addr) (sender : Addr) (n : Nat)
    (h : mapGet mq.queues sender = []) :
    mq.RemoveNext sender n = (mq, none, false, none) := by
  simp [MessageQueue.RemoveNext, h]

theorem RemoveNext_of_cons (mq : MessageQueue Addr) (sender : Addr) (n : Nat)
    (head : QueuedMessage Addr) (rest : List (QueuedMessage Addr))
    (h : mapGet mq.queues sender = head :: rest) :
    mq.RemoveNext sender n =
      if n = head.Msg.Nonce then
        (⟨mapSet mq.queues sender rest⟩, some head.Msg, true, none)
      else if n > head.Msg.Nonce then
        (mq, none, false, some (QueueError.outOfOrder sender head.Msg.Nonce n))
      else
        (mq, none, false, none) := by
  simp [MessageQueue.RemoveNext, h]

/-! ## The loop of `ExpireBefore` -/

theorem mapGet_appendExpired (e : List (Addr × List (SignedMessage Addr))) (s s' : Addr)
    (q : List (QueuedMessage Addr)) :
    mapGet (appendExpired e s q) s' =
      if s' = s then mapGet e s ++ q.map QueuedMessage.Msg else mapGet e s' := by
  induction q generalizing e with
  | nil =>
    by_cases h : s' = s
    · simp [appendExpired, h]
    · simp [appendExpired, h]
  | cons m rest ih =>
    have hstep : appendExpired e s (m :: rest) =
        appendExpired (mapSet e s (mapGet e s ++ [m.Msg])) s rest := rfl
    rw [hstep, ih, mapGet_mapSet, mapGet_mapSet]
    by_cases h : s' = s
    · simp [h]
    · simp [h]

theorem mem_mapKeys_appendExpired (e : List (Addr × List (SignedMessage Addr))) (s s' : Addr)
    (q : List (QueuedMessage Addr)) :
    s' ∈ mapKeys (appendExpired e s q) ↔ s' ∈ mapKeys e ∨ (s' = s ∧ q ≠ []) := by
  induction q generalizing e with
  | nil => simp [appendExpired]
  | cons m rest ih =>
    have hstep : appendExpired e s (m :: rest) =
        appendExpired (mapSet e s (mapGet e s ++ [m.Msg])) s rest := rfl
    rw [hstep, ih, mem_mapKeys_mapSet]
    simp only [ne_eq, reduceCtorEq, not_false_eq_true, and_true]
    tauto

theorem expireVisit_eq (stamp : Nat)
    (st : MessageQueue Addr × List (Addr × List (SignedMessage Addr))) (s : Addr) :
    expireVisit stamp st s =
      if staleHead stamp (mapGet st.1.queues s) = true then
        (⟨mapSet st.1.queues s []⟩, appendExpired st.2 s (mapGet st.1.queues s))
      else st := by
  unfold expireVisit
  cases hq : mapGet st.1.queues s with
  | nil => simp [staleHead]
  | cons head rest => simp [staleHead]

theorem expireVisit_queues (stamp : Nat)
    (st : MessageQueue Addr × List (Addr × List (SignedMessage Addr))) (s s' : Addr) :
    mapGet (expireVisit stamp st s).1.queues s' =
      if s' = s ∧ staleHead stamp (mapGet st.1.queues s) = true then []
      else mapGet st.1.queues s' := by
  rw [expireVisit_eq]
  by_cases hst : staleHead stamp (mapGet st.1.queues s) = true
  · simp only [hst, if_true, and_true, mapGet_mapSet]
  · simp [hst]

theorem expireVisit_expired (stamp : Nat)
    (st : MessageQueue Addr × List (Addr × List (SignedMessage Addr))) (s s' : Addr) :
    mapGet (expireVisit stamp st s).2 s' =
      if s' = s ∧ staleHead stamp (mapGet st.1.queues s) = true then
        mapGet st.2 s ++ (mapGet st.1.queues s).map QueuedMessage.Msg
      else mapGet st.2 s' := by
  rw [expireVisit_eq]
  by_cases hst : staleHead stamp (mapGet st.1.queues s) = true
  · simp only [hst, if_true, and_true, mapGet_appendExpired]
  · simp [hst]

theorem staleHead_nil (stamp : Nat) :
    staleHead stamp ([] : List (QueuedMessage Addr)) = false := rfl

theorem staleHead_ne_nil (stamp : Nat) (q : List (QueuedMessage Addr))
    (h : staleHead stamp q = true) : q ≠ [] := by
  intro e
  subst e
  simp [staleHead] at h

theorem expireVisit_keys (stamp : Nat)
    (st : MessageQueue Addr × List (Addr × List (SignedMessage Addr))) (s s' : Addr) :
    s' ∈ mapKeys (expireVisit stamp st s).2 ↔
      s' ∈ mapKeys st.2 ∨ (s' = s ∧ staleHead stamp (mapGet st.1.queues s) = true) := by
  rw [expireVisit_eq]
  by_cases hst : staleHead stamp (mapGet st.1.queues s) = true
  · simp only [hst, if_true, and_true, mem_mapKeys_appendExpired]
    have := staleHead_ne_nil stamp _ hst
    tauto
  · simp [hst]

theorem expireFold_queues (stamp : Nat) (ks : List Addr)
    (st : MessageQueue Addr × List (Addr × List (SignedMessage Addr))) (s' : Addr) :
    mapGet (ks.foldl (expireVisit stamp) st).1.queues s' =
      if s' ∈ ks ∧ staleHead stamp (mapGet st.1.queues s') = true then []
      else mapGet st.1.queues s' := by
  induction ks generalizing st with
  | nil => simp
  | cons k rest ih =>
    rw [List.foldl_cons, ih, expireVisit_queues]
    by_cases hk : s' = k
    · subst hk
      by_cases hst : staleHead stamp (mapGet st.1.queues s') = true
      · simp [hst, staleHead_nil]
      · simp [hst]
    · simp [hk]

theorem expireFold_expired (stamp : Nat) (ks : List Addr)
    (st : MessageQueue Addr × List (Addr × List (SignedMessage Addr))) (s' : Addr) :
    mapGet (ks.foldl (expireVisit stamp) st).2 s' =
      if s' ∈ ks ∧ staleHead stamp (mapGet st.1.queues s') = true then
        mapGet st.2 s' ++ (mapGet st.1.queues s').map QueuedMessage.Msg
      else mapGet st.2 s' := by
  induction ks generalizing st with
  | nil => simp
  | cons k rest ih =>
    rw [List.foldl_cons, ih, expireVisit_queues, expireVisit_expired]
    by_cases hk : s' = k
    · subst hk
      by_cases hst : staleHead stamp (mapGet st.1.queues s') = true
      · simp [hst, staleHead_nil]
      · simp [hst]
    · simp [hk]

theorem expireFold_keys (stamp : Nat) (ks : List Addr)
    (st : MessageQueue Addr × List (Addr × List (SignedMessage Addr))) (s' : Addr) :
    s' ∈ mapKeys (ks.foldl (expireVisit stamp) st).2 ↔
      s' ∈ mapKeys st.2 ∨ (s' ∈ ks ∧ staleHead stamp (mapGet st.1.queues s') = true) := by
  induction ks generalizing st with
  | nil => simp
  | cons k rest ih =>
    rw [List.foldl_cons, ih, expireVisit_queues, expireVisit_keys]
    by_cases hk : s' = k
    · subst hk
      by_cases hst : staleHead stamp (mapGet st.1.queues s') = true
      · simp [hst, staleHead_nil]
      · simp [hst]
    · simp [hk]

theorem mem_mapKeys_of_staleHead (mq : MessageQueue Addr) (stamp : Nat) (s : Addr)
    (h : staleHead stamp (mapGet mq.queues s) = true) : s ∈ mapKeys mq.queues := by
  by_contra hmem
  rw [mapGet_eq_nil_of_not_mem _ _ hmem] at h
  simp [staleHead] at h

theorem ExpireBefore_queues (mq : MessageQueue Addr) (stamp : Nat) (s : Addr) :
    mapGet (mq.ExpireBefore stamp).1.queues s =
      if staleHead stamp (mapGet mq.queues s) = true then [] else mapGet mq.queues s := by
  unfold MessageQueue.ExpireBefore MessageQueue.expireIn
  rw [expireFold_queues]
  by_cases hst : staleHead stamp (mapGet mq.queues s) = true
  · simp [hst, mem_mapKeys_of_staleHead mq stamp s hst]
  · simp [hst]

theorem ExpireBefore_expired (mq : MessageQueue Addr) (stamp : Nat) (s : Addr) :
    mapGet (mq.ExpireBefore stamp).2 s =
      if staleHead stamp (mapGet mq.queues s) = true then
        (mapGet mq.queues s).map QueuedMessage.Msg
      else [] := by
  unfold MessageQueue.ExpireBefore MessageQueue.expireIn
  rw [expireFold_expired]
  by_cases hst : staleHead stamp (mapGet mq.queues s) = true
  · simp [hst, mem_mapKeys_of_staleHead mq stamp s hst, mapGet]
  · simp [hst, mapGet]

theorem ExpireBefore_keys (mq : MessageQueue Addr) (stamp : Nat) (s : Addr) :
    s ∈ mapKeys (mq.ExpireBefore stamp).2 ↔ staleHead stamp (mapGet mq.queues s) = true := by
  unfold MessageQueue.ExpireBefore MessageQueue.expireIn
  rw [expireFold_keys]
  by_cases hst : staleHead stamp (mapGet mq.queues s) = true
  · simp [hst, mem_mapKeys_of_staleHead mq stamp s hst]
  · simp [hst, mapKeys]

theorem expireIn_queues_eq (mq : MessageQueue Addr) (order : List Addr) (stamp : Nat)
    (horder : ∀ k, k ∈ mapKeys mq.queues → k ∈ order) (s : Addr) :
    mapGet (mq.expireIn order stamp).1.queues s = mapGet (mq.ExpireBefore stamp).1.queues s := by
  rw [ExpireBefore_queues]
  unfold MessageQueue.expireIn
  rw [expireFold_queues]
  by_cases hst : staleHead stamp (mapGet mq.queues s) = true
  · simp [hst, horder s (mem_mapKeys_of_staleHead mq stamp s hst)]
  · simp [hst]

theorem expireIn_expired_eq (mq : MessageQueue Addr) (order : List Addr) (stamp : Nat)
    (horder : ∀ k, k ∈ mapKeys mq.queues → k ∈ order) (s : Addr) :
    mapGet (mq.expireIn order stamp).2 s = mapGet (mq.ExpireBefore stamp).2 s := by
  rw [ExpireBefore_expired]
  unfold MessageQueue.expireIn
  rw [expireFold_expired]
  by_cases hst : staleHead stamp (mapGet mq.queues s) = true
  · simp [hst, horder s (mem_mapKeys_of_staleHead mq stamp s hst), mapGet]
  · simp [hst, mapGet]

/-! ## Contiguity of the nonces -/

theorem Contiguous_tail (a : QueuedMessage Addr) (rest : List (QueuedMessage Addr))
    (h : Contiguous (a :: rest)) : Contiguous rest := by
  cases rest with
  | nil => trivial
  | cons b rest => exact h.2

theorem Contiguous_append (q : List (QueuedMessage Addr)) (l m : QueuedMessage Addr)
    (hq : Contiguous q) (hl : q.getLast? = some l)
    (hm : m.Msg.Nonce = (l.Msg.Nonce + 1) % uint64Mod) : Contiguous (q ++ [m]) := by
  induction q with
  | nil => simp at hl
  | cons a rest ih =>
    cases rest with
    | nil =>
      simp at hl
      subst hl
      exact ⟨hm, trivial⟩
    | cons b rest =>
      have hl' : (b :: rest).getLast? = some l := by
        simpa [List.getLast?_cons_cons] using hl
      exact ⟨hq.1, ih hq.2 hl'⟩

theorem Contiguous_getElem? (q : List (QueuedMessage Addr)) (hq : Contiguous q) (i : Nat)
    (a b : QueuedMessage Addr) (ha : q[i]? = some a) (hb : q[i + 1]? = some b) :
    b.Msg.Nonce = (a.Msg.Nonce + 1) % uint64Mod := by
  induction q generalizing i with
  | nil => simp at ha
  | cons x rest ih =>
    cases rest with
    | nil => simp at hb
    | cons y rest =>
      cases i with
      | zero =>
        simp at ha hb
        subst ha hb
        exact hq.1
      | succ j =>
        have ha' : (y :: rest)[j]? = some a := by simpa using ha
        have hb' : (y :: rest)[j + 1]? = some b := by simpa using hb
        exact ih hq.2 j ha' hb'

theorem Enqueue_contiguous (mq : MessageQueue Addr) (msg : SignedMessage Addr) (stamp : Nat)
    (h : ∀ s, Contiguous (mapGet mq.queues s)) (s : Addr) :
    Contiguous (mapGet (mq.Enqueue msg stamp).1.queues s) := by
  cases hl : (mapGet mq.queues msg.From).getLast? with
  | none =>
    have hnil : mapGet mq.queues msg.From = [] := List.getLast?_eq_none_iff.mp hl
    rw [Enqueue_of_nil mq msg stamp hnil]
    simp only [mapGet_mapSet]
    by_cases hs : s = msg.From
    · simp only [hs, if_true]
      trivial
    · simp only [hs, if_false]
      exact h s
  | some l =>
    rw [Enqueue_of_getLast mq msg stamp l hl]
    by_cases hn : msg.Nonce ≠ (l.Msg.Nonce + 1) % uint64Mod
    · rw [if_pos hn]
      exact h s
    · rw [if_neg hn]
      simp only [mapGet_mapSet]
      by_cases hs : s = msg.From
      · simp only [hs, if_true]
        exact Contiguous_append _ l ⟨msg, stamp⟩ (h msg.From) hl (not_not.mp hn)
      · simp only [hs, if_false]
        exact h s

theorem RemoveNext_contiguous (mq : MessageQueue Addr) (sender : Addr) (n : Nat)
    (h : ∀ s, Contiguous (mapGet mq.queues s)) (s : Addr) :
    Contiguous (mapGet (mq.RemoveNext sender n).1.queues s) := by
  cases hq : mapGet mq.queues sender with
  | nil =>
    rw [RemoveNext_of_nil mq sender n hq]
    exact h s
  | cons head rest =>
    rw [RemoveNext_of_cons mq sender n head rest hq]
    by_cases hn : n = head.Msg.Nonce
    · rw [if_pos hn]
      simp only [mapGet_mapSet]
      by_cases hs : s = sender
      · simp only [hs, if_true]
        have := h sender
        rw [hq] at this
        exact Contiguous_tail head rest this
      · simp only [hs, if_false]
        exact h s
    · by_cases hgt : n > head.Msg.Nonce
      · rw [if_neg hn, if_pos hgt]
        exact h s
      · rw [if_neg hn, if_neg hgt]
        exact h s

theorem Clear_contiguous (mq : MessageQueue Addr) (sender : Addr)
    (h : ∀ s, Contiguous (mapGet mq.queues s)) (s : Addr) :
    Contiguous (mapGet (mq.Clear sender).1.queues s) := by
  simp only [MessageQueue.Clear, mapGet_mapDelete]
  by_cases hs : s = sender
  · simp only [hs, if_true]
    trivial
  · simp only [hs, if_false]
    exact h s

theorem ExpireBefore_contiguous (mq : MessageQueue Addr) (stamp : Nat)
    (h : ∀ s, Contiguous (mapGet mq.queues s)) (s : Addr) :
    Contiguous (mapGet (mq.ExpireBefore stamp).1.queues s) := by
  rw [ExpireBefore_queues]
  by_cases hst : staleHead stamp (mapGet mq.queues s) = true
  · simp only [hst, if_true]
    trivial
  · simp only [hst, if_false]
    exact h s

theorem step_contiguous (mq : MessageQueue Addr) (c : Call Addr)
    (h : ∀ s, Contiguous (mapGet mq.queues s)) (s : Addr) :
    Contiguous (mapGet (mq.step c).queues s) := by
  cases c with
  | enqueue msg stamp => exact Enqueue_contiguous mq msg stamp h s
  | removeNext sender n => exact RemoveNext_contiguous mq sender n h s
  | clear sender => exact Clear_contiguous mq sender h s
  | expireBefore stamp => exact ExpireBefore_contiguous mq stamp h s

theorem foldl_step_contiguous (calls : List (Call Addr)) (mq : MessageQueue Addr)
    (h : ∀ s, Contiguous (mapGet mq.queues s)) (s : Addr) :
    Contiguous (mapGet (calls.foldl MessageQueue.step mq).queues s) := by
  induction calls generalizing mq with
  | nil => exact h s
  | cons c rest ih => exact ih (mq.step c) (step_contiguous mq c h)

theorem run_contiguous (calls : List (Call Addr)) (s : Addr) :
    Contiguous (mapGet (run calls).queues s) :=
  foldl_step_contiguous calls NewMessageQueue (fun _ => trivial) s

/-! ## The claims -/

/-- C1: in every state reached from `NewMessageQueue()` by a finite sequence of `Enqueue`,
`RemoveNext`, `Clear` and `ExpireBefore` calls, whenever `a` and `b` are adjacent entries
(positions `i` and `i + 1`) of a sender's queue, the nonce of `b` is the nonce of `a` plus
one, the sum taken modulo `2 ^ 64`. -/
theorem C1_adjacent_nonces_consecutive (calls : List (Call Addr)) (sender : Addr) (i : Nat)
    (a b : QueuedMessage Addr)
    (ha : (mapGet (run calls).queues sender)[i]? = some a)
    (hb : (mapGet (run calls).queues sender)[i + 1]? = some b) :
    b.Msg.Nonce = (a.Msg.Nonce + 1) % uint64Mod :=
  Contiguous_getElem? _ (run_contiguous calls sender) i a b ha hb

/-- C1 at the state after `Enqueue(A, 5, 10)`, `Enqueue(A, 6, 11)`, positions 0 and 1. -/
theorem C1_adjacent_nonces_consecutive_witness :
    (mapGet (run [Call.enqueue ⟨1, 5, 0⟩ 10, Call.enqueue ⟨1, 6, 0⟩ 11] :
        MessageQueue Nat).queues 1)[0]? = some ⟨⟨1, 5, 0⟩, 10⟩ ∧
    (mapGet (run [Call.enqueue ⟨1, 5, 0⟩ 10, Call.enqueue ⟨1, 6, 0⟩ 11] :
        MessageQueue Nat).queues 1)[0 + 1]? = some ⟨⟨1, 6, 0⟩, 11⟩ ∧
    (6 : Nat) = (5 + 1) % uint64Mod :=
  ⟨by decide, by decide,
    C1_adjacent_nonces_consecutive
      [Call.enqueue ⟨1, 5, 0⟩ 10, Call.enqueue ⟨1, 6, 0⟩ 11] 1 0
      ⟨⟨1, 5, 0⟩, 10⟩ ⟨⟨1, 6, 0⟩, 11⟩ (by decide) (by decide)⟩

/-- On a non-empty queue with last entry `l`, a message whose nonce is not the nonce of `l`
plus one, the sum taken modulo `2 ^ 64`, is rejected: `Enqueue` returns the error carrying
the received nonce and the nonce it computed, and the state it was given. -/
theorem Enqueue_rejects_other_nonce (mq : MessageQueue Addr) (msg : SignedMessage Addr)
    (stamp : Nat) (l : QueuedMessage Addr)
    (hl : (mapGet mq.queues msg.From).getLast? = some l)
    (hn : msg.Nonce ≠ (l.Msg.Nonce + 1) % uint64Mod) :
    mq.Enqueue msg stamp =
      (mq, some (QueueError.invalidNonce msg.Nonce ((l.Msg.Nonce + 1) % uint64Mod))) := by
  rw [Enqueue_of_getLast mq msg stamp l hl, if_pos hn]

/-- C2, the code after `Enqueue(A, 2^64 - 1, 10)`: the queue of `A` ends with the nonce
`L = 2^64 - 1`. The nonce 0 is not `L + 1`, yet `Enqueue(A, 0, 11)` returns no error and
appends the message; and `Enqueue(A, 5, 11)` is rejected with the expected nonce reported
as 0, which is not `L + 1` either. -/
theorem C2_enqueue_accepts_wrapped_nonce :
    (mapGet (run [Call.enqueue ⟨1, 18446744073709551615, 0⟩ 10] :
        MessageQueue Nat).queues 1).getLast? = some ⟨⟨1, 18446744073709551615, 0⟩, 10⟩ ∧
    (0 : Nat) ≠ 18446744073709551615 + 1 ∧
    (run [Call.enqueue ⟨1, 18446744073709551615, 0⟩ 10] : MessageQueue Nat).Enqueue
        ⟨1, 0, 1⟩ 11 =
      (⟨[(1, [⟨⟨1, 18446744073709551615, 0⟩, 10⟩, ⟨⟨1, 0, 1⟩, 11⟩])]⟩, none) ∧
    (run [Call.enqueue ⟨1, 18446744073709551615, 0⟩ 10] : MessageQueue Nat).Enqueue
        ⟨1, 5, 1⟩ 11 =
      (⟨[(1, [⟨⟨1, 18446744073709551615, 0⟩, 10⟩])]⟩, some (QueueError.invalidNonce 5 0)) := by
  decide

/-- C3: when the sender has no queue or an empty one (`mq.queues[msg.From]` has length 0),
whatever the nonce, or a non-empty queue whose last nonce plus one (the `uint64` sum) is the
message's nonce, `Enqueue` returns no error and the sender's queue afterwards is the queue
before with the entry `(msg, stamp)` appended. -/
theorem C3_enqueue_appends_at_tail (mq : MessageQueue Addr) (msg : SignedMessage Addr)
    (stamp : Nat)
    (h : mapGet mq.queues msg.From = [] ∨
      ∃ l, (mapGet mq.queues msg.From).getLast? = some l ∧
        (l.Msg.Nonce + 1) % uint64Mod = msg.Nonce) :
    (mq.Enqueue msg stamp).2 = none ∧
    mapGet (mq.Enqueue msg stamp).1.queues msg.From =
      mapGet mq.queues msg.From ++ [⟨msg, stamp⟩] := by
  rcases h with hnil | ⟨l, hl, hn⟩
  · rw [Enqueue_of_nil mq msg stamp hnil]
    simp [mapGet_mapSet, hnil]
  · rw [Enqueue_of_getLast mq msg stamp l hl, if_neg (not_not.mpr hn.symm)]
    simp [mapGet_mapSet]

/-- C3 on the queue `[5]` of sender 1 and a message with nonce 6. -/
theorem C3_enqueue_appends_at_tail_witness :
    (mapGet (run [Call.enqueue ⟨1, 5, 0⟩ 10] : MessageQueue Nat).queues 1 = [] ∨
      ∃ l, (mapGet (run [Call.enqueue ⟨1, 5, 0⟩ 10] : MessageQueue Nat).queues 1).getLast?
          = some l ∧ (l.Msg.Nonce + 1) % uint64Mod = 6) ∧
    ((run [Call.enqueue ⟨1, 5, 0⟩ 10] : MessageQueue Nat).Enqueue ⟨1, 6, 0⟩ 11).2 = none ∧
    mapGet ((run [Call.enqueue ⟨1, 5, 0⟩ 10] : MessageQueue Nat).Enqueue
        ⟨1, 6, 0⟩ 11).1.queues 1 =
      mapGet (run [Call.enqueue ⟨1, 5, 0⟩ 10] : MessageQueue Nat).queues 1
        ++ [⟨⟨1, 6, 0⟩, 11⟩] :=
  ⟨Or.inr ⟨⟨⟨1, 5, 0⟩, 10⟩, by decide, by decide⟩,
    C3_enqueue_appends_at_tail (run [Call.enqueue ⟨1, 5, 0⟩ 10] : MessageQueue Nat)
      ⟨1, 6, 0⟩ 11 (Or.inr ⟨⟨⟨1, 5, 0⟩, 10⟩, by decide, by decide⟩)⟩

/-- C4: `RemoveNext(sender, n)` returns `found = true` exactly when the sender's queue is
non-empty and its head has nonce `n`; it then returns the head's message and no error, and
the sender's queue afterwards is the queue before without its first entry. -/
theorem C4_removeNext_pops_matching_head (mq : MessageQueue Addr) (sender : Addr) (n : Nat) :
    ((mq.RemoveNext sender n).2.2.1 = true ↔
      ∃ head rest, mapGet mq.queues sender = head :: rest ∧ head.Msg.Nonce = n) ∧
    (∀ head rest, mapGet mq.queues sender = head :: rest → head.Msg.Nonce = n →
      (mq.RemoveNext sender n).2 = (some head.Msg, true, none) ∧
      mapGet (mq.RemoveNext sender n).1.queues sender = rest) := by
  cases hq : mapGet mq.queues sender with
  | nil =>
    rw [RemoveNext_of_nil mq sender n hq]
    simp
  | cons head rest =>
    rw [RemoveNext_of_cons mq sender n head rest hq]
    by_cases hn : n = head.Msg.Nonce
    · rw [if_pos hn]
      refine ⟨⟨fun _ => ⟨head, rest, rfl, hn.symm⟩, fun _ => rfl⟩, ?_⟩
      intro head' rest' he _
      injection he with h1 h2
      subst h1 h2
      simp [mapGet_mapSet]
    · have hn' : ¬ head.Msg.Nonce = n := fun e => hn e.symm
      constructor
      · by_cases hgt : n > head.Msg.Nonce
        · rw [if_neg hn, if_pos hgt]
          simp only [Bool.false_eq_true, false_iff, not_exists, not_and]
          intro head' rest' he
          injection he with h1 h2
          subst h1
          exact hn'
        · rw [if_neg hn, if_neg hgt]
          simp only [Bool.false_eq_true, false_iff, not_exists, not_and]
          intro head' rest' he
          injection he with h1 h2
          subst h1
          exact hn'
      · intro head' rest' he hn''
        injection he with h1 h2
        subst h1
        exact absurd hn'' hn'

/-- C4 on the scenario `RemoveNext(A, 5)` on the queue `[5, 6]`: the call returns
`(msg(5), true, nil)` and the queue becomes `[6]`. -/
theorem C4_removeNext_pops_matching_head_witness :
    ((run [Call.enqueue ⟨1, 5, 0⟩ 10, Call.enqueue ⟨1, 6, 0⟩ 11] : MessageQueue Nat).RemoveNext
        1 5).2 = (some ⟨1, 5, 0⟩, true, none) ∧
    mapGet ((run [Call.enqueue ⟨1, 5, 0⟩ 10, Call.enqueue ⟨1, 6, 0⟩ 11] :
        MessageQueue Nat).RemoveNext 1 5).1.queues 1 = [⟨⟨1, 6, 0⟩, 11⟩] :=
  (C4_removeNext_pops_matching_head
    (run [Call.enqueue ⟨1, 5, 0⟩ 10, Call.enqueue ⟨1, 6, 0⟩ 11] : MessageQueue Nat) 1 5).2
    ⟨⟨1, 5, 0⟩, 10⟩ [⟨⟨1, 6, 0⟩, 11⟩] (by decide) (by decide)

/-- C5: `RemoveNext(sender, n)` returns an error exactly when the sender's queue is non-empty
and `n` is strictly greater than the head's nonce; when the queue is empty or `n` is strictly
less than the head's nonce it returns no message, `found = false` and no error; and whenever
it returns an error or `found = false`, the state it returns is the state it was given. -/
theorem C5_removeNext_error_and_not_found (mq : MessageQueue Addr) (sender : Addr) (n : Nat) :
    ((mq.RemoveNext sender n).2.2.2 ≠ none ↔
      ∃ head rest, mapGet mq.queues sender = head :: rest ∧ head.Msg.Nonce < n) ∧
    ((mapGet mq.queues sender = [] ∨
        ∃ head rest, mapGet mq.queues sender = head :: rest ∧ n < head.Msg.Nonce) →
      (mq.RemoveNext sender n).2 = (none, false, none)) ∧
    (((mq.RemoveNext sender n).2.2.2 ≠ none ∨ (mq.RemoveNext sender n).2.2.1 = false) →
      (mq.RemoveNext sender n).1 = mq) := by
  cases hq : mapGet mq.queues sender with
  | nil =>
    rw [RemoveNext_of_nil mq sender n hq]
    simp
  | cons head rest =>
    rw [RemoveNext_of_cons mq sender n head rest hq]
    by_cases hn : n = head.Msg.Nonce
    · rw [if_pos hn]
      subst hn
      simp
    · by_cases hgt : n > head.Msg.Nonce
      · rw [if_neg hn, if_pos hgt]
        refine ⟨⟨fun _ => ⟨head, rest, rfl, hgt⟩, fun _ => by simp⟩, ?_, fun _ => rfl⟩
        rintro (he | ⟨head', rest', he, hlt⟩)
        · exact absurd he (by simp)
        · injection he with h1 h2
          subst h1
          omega
      · rw [if_neg hn, if_neg hgt]
        refine ⟨?_, fun _ => rfl, fun _ => rfl⟩
        simp only [ne_eq, not_true_eq_false, false_iff, not_exists, not_and]
        intro head' rest' he
        injection he with h1 h2
        subst h1
        exact hgt

/-- C5 on the queue `[5, 6]`: `RemoveNext(A, 4)` reports not found. -/
theorem C5_removeNext_error_and_not_found_witness :
    ((run [Call.enqueue ⟨1, 5, 0⟩ 10, Call.enqueue ⟨1, 6, 0⟩ 11] : MessageQueue Nat).RemoveNext
        1 4).2 = (none, false, none) :=
  (C5_removeNext_error_and_not_found
    (run [Call.enqueue ⟨1, 5, 0⟩ 10, Call.enqueue ⟨1, 6, 0⟩ 11] : MessageQueue Nat) 1 4).2.1
    (Or.inr ⟨⟨⟨1, 5, 0⟩, 10⟩, [⟨⟨1, 6, 0⟩, 11⟩], by decide, by decide⟩)

/-- C6, the code at `Enqueue(A, 2^64 - 1, 10)`, `Enqueue(A, 0, 11)`: the queue of `A` is
`[2^64 - 1, 0]`, the first `RemoveNext(A, 2^64 - 1)` returns the head with `found = true`,
and the second `RemoveNext(A, 2^64 - 1)` meets the head with nonce 0 and returns an error
instead of `found = false` without error. -/
theorem C6_second_removeNext_errors_after_wrap :
    mapGet (run [Call.enqueue ⟨1, 18446744073709551615, 0⟩ 10, Call.enqueue ⟨1, 0, 1⟩ 11] :
        MessageQueue Nat).queues 1 =
      [⟨⟨1, 18446744073709551615, 0⟩, 10⟩, ⟨⟨1, 0, 1⟩, 11⟩] ∧
    ((run [Call.enqueue ⟨1, 18446744073709551615, 0⟩ 10, Call.enqueue ⟨1, 0, 1⟩ 11] :
        MessageQueue Nat).RemoveNext 1 18446744073709551615).2 =
      (some ⟨1, 18446744073709551615, 0⟩, true, none) ∧
    (((run [Call.enqueue ⟨1, 18446744073709551615, 0⟩ 10, Call.enqueue ⟨1, 0, 1⟩ 11] :
        MessageQueue Nat).RemoveNext 1 18446744073709551615).1.RemoveNext 1 18446744073709551615).2 =
      (none, false, some (QueueError.outOfOrder 1 0 18446744073709551615)) := by
  decide

/-- In a state reached from `NewMessageQueue()` in which the sender's queue is
`head :: rest`, with `rest` empty or the head's nonce `n` below `2 ^ 64 - 1`, the first
`RemoveNext(sender, n)` returns `found = true` and no error and shortens the sender's queue
by one; the second `RemoveNext(sender, n)` returns no message, `found = false` and no error,
and the state it returns is the state it was given. -/
theorem RemoveNext_twice_of_no_wrap (calls : List (Call Addr)) (sender : Addr)
    (head : QueuedMessage Addr) (rest : List (QueuedMessage Addr))
    (hq : mapGet (run calls).queues sender = head :: rest)
    (hw : rest = [] ∨ head.Msg.Nonce + 1 < uint64Mod) :
    ((run calls).RemoveNext sender head.Msg.Nonce).2.2.1 = true ∧
    ((run calls).RemoveNext sender head.Msg.Nonce).2.2.2 = none ∧
    (mapGet ((run calls).RemoveNext sender head.Msg.Nonce).1.queues sender).length + 1 =
      (head :: rest).length ∧
    (((run calls).RemoveNext sender head.Msg.Nonce).1.RemoveNext sender
        head.Msg.Nonce).2 = (none, false, none) ∧
    (((run calls).RemoveNext sender head.Msg.Nonce).1.RemoveNext sender
        head.Msg.Nonce).1 = ((run calls).RemoveNext sender head.Msg.Nonce).1 := by
  have hc : Contiguous (head :: rest) := hq ▸ run_contiguous calls sender
  have h1 : (run calls).RemoveNext sender head.Msg.Nonce =
      (⟨mapSet (run calls).queues sender rest⟩, some head.Msg, true, none) := by
    rw [RemoveNext_of_cons _ sender _ head rest hq, if_pos rfl]
  have hrest : mapGet (⟨mapSet (run calls).queues sender rest⟩ : MessageQueue Addr).queues
      sender = rest := by
    simp [mapGet_mapSet]
  rw [h1]
  refine ⟨rfl, rfl, ?_, ?_⟩
  · simp [mapGet_mapSet]
  · cases rest with
    | nil =>
      rw [RemoveNext_of_nil _ sender _ hrest]
      exact ⟨rfl, rfl⟩
    | cons b rest' =>
      have hb : b.Msg.Nonce = (head.Msg.Nonce + 1) % uint64Mod := hc.1
      have hlt : head.Msg.Nonce + 1 < uint64Mod := by
        rcases hw with hw | hw
        · exact absurd hw (by simp)
        · exact hw
      rw [Nat.mod_eq_of_lt hlt] at hb
      rw [RemoveNext_of_cons _ sender _ b rest' hrest,
        if_neg (by omega), if_neg (by omega)]
      exact ⟨rfl, rfl⟩

theorem staleHead_cons (stamp : Nat) (head : QueuedMessage Addr)
    (rest : List (QueuedMessage Addr)) :
    staleHead stamp (head :: rest) = decide (head.Stamp < stamp) := rfl

theorem staleHead_iff (stamp : Nat) (q : List (QueuedMessage Addr)) :
    staleHead stamp q = true ↔ ∃ head rest, q = head :: rest ∧ head.Stamp < stamp := by
  cases q with
  | nil => simp [staleHead_nil]
  | cons head rest => simp [staleHead_cons]

/-- C7: the keys of the map returned by `ExpireBefore(t)` are exactly the senders whose queue
is non-empty with a head stamp strictly below `t`; for such a sender the map holds the
messages of the whole queue in queue order and the sender's queue is empty afterwards; a
sender whose head stamp is at least `t` keeps its queue as it was. -/
theorem C7_expireBefore_by_head_stamp (mq : MessageQueue Addr) (t : Nat) (s : Addr) :
    (s ∈ mapKeys (mq.ExpireBefore t).2 ↔
      ∃ head rest, mapGet mq.queues s = head :: rest ∧ head.Stamp < t) ∧
    (∀ head rest, mapGet mq.queues s = head :: rest → head.Stamp < t →
      mapGet (mq.ExpireBefore t).2 s = (head :: rest).map QueuedMessage.Msg ∧
      mapGet (mq.ExpireBefore t).1.queues s = []) ∧
    (∀ head rest, mapGet mq.queues s = head :: rest → t ≤ head.Stamp →
      mapGet (mq.ExpireBefore t).1.queues s = head :: rest) := by
  refine ⟨?_, ?_, ?_⟩
  · rw [ExpireBefore_keys, staleHead_iff]
  · intro head rest hq hlt
    have hst : staleHead t (mapGet mq.queues s) = true := by
      rw [hq, staleHead_cons]
      exact decide_eq_true hlt
    rw [ExpireBefore_expired, ExpireBefore_queues, if_pos hst, if_pos hst, hq]
    exact ⟨rfl, rfl⟩
  · intro head rest hq hge
    have hst : ¬ staleHead t (mapGet mq.queues s) = true := by
      rw [hq, staleHead_cons, decide_eq_true_eq]
      omega
    rw [ExpireBefore_queues, if_neg hst, hq]

/-- C7 on two senders: sender 1 with stamps `[10, 50]` is expired by `ExpireBefore(11)` with
both messages, whatever the second stamp. -/
theorem C7_expireBefore_by_head_stamp_witness :
    mapGet ((run [Call.enqueue ⟨1, 5, 0⟩ 10, Call.enqueue ⟨2, 3, 0⟩ 11,
        Call.enqueue ⟨1, 6, 0⟩ 50] : MessageQueue Nat).ExpireBefore 11).2 1 =
      [⟨1, 5, 0⟩, ⟨1, 6, 0⟩] ∧
    mapGet ((run [Call.enqueue ⟨1, 5, 0⟩ 10, Call.enqueue ⟨2, 3, 0⟩ 11,
        Call.enqueue ⟨1, 6, 0⟩ 50] : MessageQueue Nat).ExpireBefore 11).1.queues 1 = [] :=
  (C7_expireBefore_by_head_stamp
    (run [Call.enqueue ⟨1, 5, 0⟩ 10, Call.enqueue ⟨2, 3, 0⟩ 11,
      Call.enqueue ⟨1, 6, 0⟩ 50] : MessageQueue Nat) 11 1).2.1
    ⟨⟨1, 5, 0⟩, 10⟩ [⟨⟨1, 6, 0⟩, 50⟩] (by decide) (by decide)

/-- C8, the code at `Enqueue(A, 5, 10)`, `RemoveNext(A, 5)`: the key of `A` stays in the map
bound to an empty queue, and `Queues()` returns `A`. -/
theorem C8_queues_reports_drained_sender :
    mapGet (run [Call.enqueue ⟨1, 5, 0⟩ 10, Call.removeNext 1 5] : MessageQueue Nat).queues 1
      = [] ∧
    (run [Call.enqueue ⟨1, 5, 0⟩ 10, Call.removeNext 1 5] : MessageQueue Nat).Queues = [1] := by
  decide

/-- C9, the code at `Enqueue(A, 5, 10)`, `Enqueue(A, 6, 10)`, `ExpireBefore(11)`: the call
returns `{A: [msg(5), msg(6)]}`, the queue of `A` is empty afterwards, and `Queues()` still
returns `A`. -/
theorem C9_queues_reports_expired_sender :
    ((run [Call.enqueue ⟨1, 5, 0⟩ 10, Call.enqueue ⟨1, 6, 0⟩ 10] :
        MessageQueue Nat).ExpireBefore 11).2 = [(1, [⟨1, 5, 0⟩, ⟨1, 6, 0⟩])] ∧
    mapGet ((run [Call.enqueue ⟨1, 5, 0⟩ 10, Call.enqueue ⟨1, 6, 0⟩ 10] :
        MessageQueue Nat).ExpireBefore 11).1.queues 1 = [] ∧
    ((run [Call.enqueue ⟨1, 5, 0⟩ 10, Call.enqueue ⟨1, 6, 0⟩ 10] :
        MessageQueue Nat).ExpireBefore 11).1.Queues = [1] := by
  decide

/-- C10: `Clear(sender)` returns `true` exactly when the sender's queue held an entry (so
`false` for an absent sender and for one bound to an empty queue); afterwards the sender is
not in `Queues()`, `List(sender)` is empty and `LargestNonce(sender)` is `(0, false)`. -/
theorem C10_clear_removes_sender (mq : MessageQueue Addr) (sender : Addr) :
    ((mq.Clear sender).2 = true ↔ mapGet mq.queues sender ≠ []) ∧
    (sender ∉ mq.Queues → (mq.Clear sender).2 = false) ∧
    sender ∉ (mq.Clear sender).1.Queues ∧
    (mq.Clear sender).1.List sender = [] ∧
    (mq.Clear sender).1.LargestNonce sender = (0, false) := by
  have hget : mapGet (mapDelete mq.queues sender) sender = [] := by
    simp [mapGet_mapDelete]
  refine ⟨?_, ?_, ?_, ?_, ?_⟩
  · simp [MessageQueue.Clear, List.length_pos]
  · intro hmem
    simp [MessageQueue.Clear, mapGet_eq_nil_of_not_mem mq.queues sender hmem]
  · simp [MessageQueue.Clear, MessageQueue.Queues, mem_mapKeys_mapDelete]
  · simp [MessageQueue.Clear, MessageQueue.List, hget]
  · simp [MessageQueue.Clear, MessageQueue.LargestNonce, hget]

/-! ## `LargestNonce` -/

theorem LargestNonce_of_nil (mq : MessageQueue Addr) (sender : Addr)
    (h : mapGet mq.queues sender = []) : mq.LargestNonce sender = (0, false) := by
  simp [MessageQueue.LargestNonce, h]

theorem LargestNonce_of_getLast (mq : MessageQueue Addr) (sender : Addr)
    (l : QueuedMessage Addr) (h : (mapGet mq.queues sender).getLast? = some l) :
    mq.LargestNonce sender = (l.Msg.Nonce, true) := by
  have hne : mapGet mq.queues sender ≠ [] := by
    intro e
    simp [e] at h
  have hpos : 0 < (mapGet mq.queues sender).length := List.length_pos.mpr hne
  have hl : (mapGet mq.queues sender)[(mapGet mq.queues sender).length - 1] = l := by
    rw [List.getLast?_eq_getElem?, List.getElem?_eq_getElem (by omega)] at h
    exact Option.some.inj h
  simp only [MessageQueue.LargestNonce, hpos, dite_true, hl]

theorem Contiguous_nonce_at (head : QueuedMessage Addr) (rest : List (QueuedMessage Addr))
    (hc : Contiguous (head :: rest)) (hw : head.Msg.Nonce + rest.length < uint64Mod)
    (i : Nat) (e : QueuedMessage Addr) (he : (head :: rest)[i]? = some e) :
    e.Msg.Nonce = head.Msg.Nonce + i := by
  induction rest generalizing head i with
  | nil =>
    cases i with
    | zero =>
      simp at he
      subst he
      rfl
    | succ j => simp at he
  | cons b rest ih =>
    cases i with
    | zero =>
      simp at he
      subst he
      rfl
    | succ j =>
      have hb : b.Msg.Nonce = (head.Msg.Nonce + 1) % uint64Mod := hc.1
      simp only [List.length_cons] at hw
      rw [Nat.mod_eq_of_lt (by omega)] at hb
      have he' : (b :: rest)[j]? = some e := by simpa using he
      have := ih b hc.2 (by omega) j he'
      omega

/-- C11, the code at `Enqueue(A, 2^64 - 1, 10)`, `Enqueue(A, 0, 11)`: the queue of `A` is
`[2^64 - 1, 0]` and `LargestNonce(A)` returns `(0, true)`, the nonce of the tail, while the
head carries the larger nonce `2^64 - 1`. -/
theorem C11_largestNonce_returns_wrapped_tail :
    mapGet (run [Call.enqueue ⟨1, 18446744073709551615, 0⟩ 10, Call.enqueue ⟨1, 0, 1⟩ 11] :
        MessageQueue Nat).queues 1 =
      [⟨⟨1, 18446744073709551615, 0⟩, 10⟩, ⟨⟨1, 0, 1⟩, 11⟩] ∧
    (run [Call.enqueue ⟨1, 18446744073709551615, 0⟩ 10, Call.enqueue ⟨1, 0, 1⟩ 11] :
        MessageQueue Nat).LargestNonce 1 = (0, true) := by
  decide

/-- In a state reached from `NewMessageQueue()`, `LargestNonce(sender)` is `(0, false)` when
the sender has no queued entry; when the queue is `head :: rest` it is `(n, true)` with `n`
the nonce of the tail entry, and `n` is the largest nonce of the queue provided the nonces
of the queue do not wrap around, that is, the head's nonce plus the number of entries behind
it stays below `2 ^ 64`. -/
theorem LargestNonce_is_tail_nonce (calls : List (Call Addr)) (sender : Addr) :
    (mapGet (run calls).queues sender = [] → (run calls).LargestNonce sender = (0, false)) ∧
    (∀ head rest, mapGet (run calls).queues sender = head :: rest →
      ∃ l, (head :: rest).getLast? = some l ∧
        (run calls).LargestNonce sender = (l.Msg.Nonce, true) ∧
        (head.Msg.Nonce + rest.length < uint64Mod →
          ∀ e ∈ head :: rest, e.Msg.Nonce ≤ l.Msg.Nonce)) := by
  refine ⟨LargestNonce_of_nil _ sender, ?_⟩
  intro head rest hq
  have hc : Contiguous (head :: rest) := hq ▸ run_contiguous calls sender
  obtain ⟨l, hl⟩ : ∃ l, (head :: rest).getLast? = some l := by
    cases h : (head :: rest).getLast? with
    | none => simp at h
    | some l => exact ⟨l, rfl⟩
  refine ⟨l, hl, LargestNonce_of_getLast _ sender l (hq ▸ hl), ?_⟩
  intro hw e he
  obtain ⟨i, hi⟩ := List.mem_iff_getElem?.mp he
  have hilt : i < (head :: rest).length := by
    by_contra hge
    rw [List.getElem?_eq_none (by omega)] at hi
    exact absurd hi (by simp)
  have h1 := Contiguous_nonce_at head rest hc hw i e hi
  rw [List.getLast?_eq_getElem?] at hl
  have h2 := Contiguous_nonce_at head rest hc hw _ l hl
  simp only [List.length_cons] at hilt h2
  omega

/-- C12: `List(sender)` has the length of the sender's queue and its `i`-th element carries
the message and the stamp of the `i`-th queued entry, so it equals the queue entry by entry;
it is empty for a sender without a queue. `List` only reads the state: it has no state among
its results. -/
theorem C12_list_copies_queue (mq : MessageQueue Addr) (sender : Addr) :
    (mq.List sender).length = (mapGet mq.queues sender).length ∧
    (∀ i : Nat, ((mq.List sender)[i]?).map QueuedMessage.Msg =
        ((mapGet mq.queues sender)[i]?).map QueuedMessage.Msg ∧
      ((mq.List sender)[i]?).map QueuedMessage.Stamp =
        ((mapGet mq.queues sender)[i]?).map QueuedMessage.Stamp) ∧
    mq.List sender = mapGet mq.queues sender ∧
    (sender ∉ mq.Queues → mq.List sender = []) := by
  have h : mq.List sender = mapGet mq.queues sender := by
    simp [MessageQueue.List]
  refine ⟨by rw [h], fun i => by rw [h]; exact ⟨rfl, rfl⟩, h, ?_⟩
  intro hmem
  rw [h]
  exact mapGet_eq_nil_of_not_mem mq.queues sender hmem

/-- C13: for two distinct senders `A` and `B`, `Enqueue` of a message from `A`,
`RemoveNext(A, n)` and `Clear(A)` leave the queue of `B` as it was, whatever they return, and
with it `List(B)` and `LargestNonce(B)`. -/
theorem C13_other_sender_untouched (mq : MessageQueue Addr) (A B : Addr) (hAB : A ≠ B)
    (msg : SignedMessage Addr) (hfrom : msg.From = A) (stamp n : Nat) :
    (mapGet (mq.Enqueue msg stamp).1.queues B = mapGet mq.queues B ∧
      (mq.Enqueue msg stamp).1.List B = mq.List B ∧
      (mq.Enqueue msg stamp).1.LargestNonce B = mq.LargestNonce B) ∧
    (mapGet (mq.RemoveNext A n).1.queues B = mapGet mq.queues B ∧
      (mq.RemoveNext A n).1.List B = mq.List B ∧
      (mq.RemoveNext A n).1.LargestNonce B = mq.LargestNonce B) ∧
    (mapGet (mq.Clear A).1.queues B = mapGet mq.queues B ∧
      (mq.Clear A).1.List B = mq.List B ∧
      (mq.Clear A).1.LargestNonce B = mq.LargestNonce B) := by
  have hBA : ¬ B = A := fun e => hAB e.symm
  have frame : ∀ mq' : MessageQueue Addr, mapGet mq'.queues B = mapGet mq.queues B →
      mapGet mq'.queues B = mapGet mq.queues B ∧ mq'.List B = mq.List B ∧
        mq'.LargestNonce B = mq.LargestNonce B := by
    intro mq' h
    refine ⟨h, ?_, ?_⟩
    · simp only [MessageQueue.List, h]
    · simp only [MessageQueue.LargestNonce, h]
  refine ⟨frame _ ?_, frame _ ?_, frame _ ?_⟩
  · subst hfrom
    cases hl : (mapGet mq.queues msg.From).getLast? with
    | none =>
      rw [Enqueue_of_nil mq msg stamp (List.getLast?_eq_none_iff.mp hl)]
      simp [mapGet_mapSet, hBA]
    | some l =>
      rw [Enqueue_of_getLast mq msg stamp l hl]
      by_cases hn : msg.Nonce ≠ (l.Msg.Nonce + 1) % uint64Mod
      · rw [if_pos hn]
      · rw [if_neg hn]
        simp [mapGet_mapSet, hBA]
  · cases hq : mapGet mq.queues A with
    | nil => rw [RemoveNext_of_nil mq A n hq]
    | cons head rest =>
      rw [RemoveNext_of_cons mq A n head rest hq]
      by_cases hn : n = head.Msg.Nonce
      · rw [if_pos hn]
        simp [mapGet_mapSet, hBA]
      · by_cases hgt : n > head.Msg.Nonce
        · rw [if_neg hn, if_pos hgt]
        · rw [if_neg hn, if_neg hgt]
  · simp [MessageQueue.Clear, mapGet_mapDelete, hBA]

/-- C13 on senders 1 and 2: a rejected `Enqueue` for 1, a `RemoveNext(1, 5)` and a
`Clear(1)` leave the queue of 2 as it was. -/
theorem C13_other_sender_untouched_witness :
    (1 : Nat) ≠ 2 ∧ (⟨1, 9, 0⟩ : SignedMessage Nat).From = 1 ∧
    mapGet ((run [Call.enqueue ⟨1, 5, 0⟩ 10, Call.enqueue ⟨2, 3, 0⟩ 11] :
        MessageQueue Nat).Enqueue ⟨1, 9, 0⟩ 12).1.queues 2 =
      mapGet (run [Call.enqueue ⟨1, 5, 0⟩ 10, Call.enqueue ⟨2, 3, 0⟩ 11] :
        MessageQueue Nat).queues 2 ∧
    mapGet ((run [Call.enqueue ⟨1, 5, 0⟩ 10, Call.enqueue ⟨2, 3, 0⟩ 11] :
        MessageQueue Nat).Clear 1).1.queues 2 =
      mapGet (run [Call.enqueue ⟨1, 5, 0⟩ 10, Call.enqueue ⟨2, 3, 0⟩ 11] :
        MessageQueue Nat).queues 2 :=
  have h := C13_other_sender_untouched
    (run [Call.enqueue ⟨1, 5, 0⟩ 10, Call.enqueue ⟨2, 3, 0⟩ 11] : MessageQueue Nat)
    1 2 (by decide) ⟨1, 9, 0⟩ rfl 12 5
  ⟨by decide, rfl, h.1.1, h.2.2.1⟩

/-! ## The run-time checks never fire -/

theorem sliceIndex_last {α : Type} (q : List α) (l : α) (h : q.getLast? = some l) :
    sliceIndex q ((q.length : Int) - 1) = some l := by
  have hne : q ≠ [] := by
    intro e
    simp [e] at h
  have hpos : 0 < q.length := List.length_pos.mpr hne
  have hidx : ((q.length : Int) - 1).toNat = q.length - 1 := by omega
  have hcond : 0 ≤ (q.length : Int) - 1 ∧ (q.length : Int) - 1 < (q.length : Int) := by
    constructor <;> omega
  rw [sliceIndex, if_pos hcond, hidx, ← List.getLast?_eq_getElem?, h]

theorem sliceIndex_zero_cons {α : Type} (head : α) (rest : List α) :
    sliceIndex (head :: rest) 0 = some head := by
  simp [sliceIndex]

theorem sliceFrom_one_cons {α : Type} (head : α) (rest : List α) :
    sliceFrom (head :: rest) 1 = some rest := by
  simp [sliceFrom]

theorem EnqueueChecked_eq (mq : MessageQueue Addr) (msg : SignedMessage Addr) (stamp : Nat) :
    EnqueueChecked mq.raw (some msg) stamp =
      some ((mq.Enqueue msg stamp).1.raw, (mq.Enqueue msg stamp).2) := by
  cases hl : (mapGet mq.queues msg.From).getLast? with
  | none =>
    have hnil : mapGet mq.queues msg.From = [] := List.getLast?_eq_none_iff.mp hl
    rw [Enqueue_of_nil mq msg stamp hnil]
    simp [EnqueueChecked, MessageQueue.raw, rawGet, rawSet, hnil]
  | some l =>
    have hne : mapGet mq.queues msg.From ≠ [] := by
      intro e
      simp [e] at hl
    have hpos : 0 < (mapGet mq.queues msg.From).length := List.length_pos.mpr hne
    rw [Enqueue_of_getLast mq msg stamp l hl]
    simp only [EnqueueChecked, MessageQueue.raw, rawGet, rawSet, hpos, if_true,
      sliceIndex_last _ l hl, Option.some_bind, Option.map_some']
    by_cases hn : msg.Nonce ≠ (l.Msg.Nonce + 1) % uint64Mod
    · rw [if_pos hn, if_pos hn]
    · rw [if_neg hn, if_neg hn]

theorem RemoveNextChecked_eq (mq : MessageQueue Addr) (sender : Addr) (n : Nat) :
    RemoveNextChecked mq.raw sender n =
      some ((mq.RemoveNext sender n).1.raw, (mq.RemoveNext sender n).2) := by
  cases hq : mapGet mq.queues sender with
  | nil =>
    rw [RemoveNext_of_nil mq sender n hq]
    simp [RemoveNextChecked, MessageQueue.raw, rawGet, hq]
  | cons head rest =>
    rw [RemoveNext_of_cons mq sender n head rest hq]
    simp only [RemoveNextChecked, MessageQueue.raw, rawGet, rawSet, hq, List.length_cons,
      Nat.zero_lt_succ, if_true, sliceIndex_zero_cons, sliceFrom_one_cons, Option.some_bind,
      Option.map_some']
    by_cases hn : n = head.Msg.Nonce
    · rw [if_pos hn, if_pos hn]
    · rw [if_neg hn, if_neg hn]
      by_cases hgt : n > head.Msg.Nonce
      · rw [if_pos hgt, if_pos hgt]
      · rw [if_neg hgt, if_neg hgt]

theorem expireVisitChecked_eq (stamp : Nat)
    (st : MessageQueue Addr × List (Addr × List (SignedMessage Addr))) (s : Addr) :
    expireVisitChecked stamp (st.1.raw, st.2) s =
      some ((expireVisit stamp st s).1.raw, (expireVisit stamp st s).2) := by
  cases hq : mapGet st.1.queues s with
  | nil => simp [expireVisitChecked, expireVisit, MessageQueue.raw, rawGet, hq]
  | cons head rest =>
    simp only [expireVisitChecked, expireVisit, MessageQueue.raw, rawGet, rawSet, hq,
      List.length_cons, Nat.zero_lt_succ, if_true, dite_true, sliceIndex_zero_cons,
      Option.some_bind, Option.map_some', List.getElem_cons_zero]
    by_cases hlt : head.Stamp < stamp
    · rw [if_pos hlt, if_pos hlt]
    · rw [if_neg hlt, if_neg hlt]

theorem foldlM_expireVisitChecked (stamp : Nat) (ks : List Addr)
    (st : MessageQueue Addr × List (Addr × List (SignedMessage Addr))) :
    ks.foldlM (expireVisitChecked stamp) (st.1.raw, st.2) =
      some ((ks.foldl (expireVisit stamp) st).1.raw, (ks.foldl (expireVisit stamp) st).2) := by
  induction ks generalizing st with
  | nil => rfl
  | cons k rest ih =>
    rw [List.foldlM_cons, expireVisitChecked_eq, List.foldl_cons]
    exact ih _

theorem LargestNonceChecked_eq (mq : MessageQueue Addr) (sender : Addr) :
    LargestNonceChecked mq.raw sender = some (mq.LargestNonce sender) := by
  cases hl : (mapGet mq.queues sender).getLast? with
  | none =>
    have hnil : mapGet mq.queues sender = [] := List.getLast?_eq_none_iff.mp hl
    rw [LargestNonce_of_nil mq sender hnil]
    simp [LargestNonceChecked, MessageQueue.raw, rawGet, hnil]
  | some l =>
    have hne : mapGet mq.queues sender ≠ [] := by
      intro e
      simp [e] at hl
    have hpos : 0 < (mapGet mq.queues sender).length := List.length_pos.mpr hne
    rw [LargestNonce_of_getLast mq sender l hl]
    simp only [LargestNonceChecked, MessageQueue.raw, rawGet, hpos, if_true,
      sliceIndex_last _ l hl, Option.some_bind]

theorem sliceStore_append_cons {α : Type} (done rest : List α) (a v : α) :
    sliceStore (done ++ a :: rest) (done.length : Int) v = some ((done ++ [v]) ++ rest) := by
  have hcond : 0 ≤ (done.length : Int) ∧
      (done.length : Int) < ((done ++ a :: rest).length : Int) := by
    constructor
    · omega
    · simp only [List.length_append, List.length_cons]
      omega
  rw [sliceStore, if_pos hcond]
  simp [List.set_append]

theorem foldlM_sliceStore {α β : Type} (f : α → β) (xs : List α) (done : List (Option β)) :
    xs.foldlM (fun (st : List (Option β) × Int) x =>
        (sliceStore st.1 st.2 (some (f x))).map (fun out' => (out', st.2 + 1)))
      (done ++ List.replicate xs.length none, (done.length : Int)) =
    some (done ++ xs.map (fun x => some (f x)), ((done.length + xs.length : Nat) : Int)) := by
  induction xs generalizing done with
  | nil => simp
  | cons x rest ih =>
    rw [List.foldlM_cons]
    simp only [List.length_cons, List.replicate_succ, sliceStore_append_cons, Option.map_some',
      Option.bind_eq_bind, Option.some_bind]
    have hlen : ((done.length : Int) + 1) = ((done ++ [some (f x)]).length : Int) := by
      simp
    rw [hlen, ih (done ++ [some (f x)])]
    simp only [List.length_append, List.length_singleton, List.append_assoc,
      List.singleton_append, List.map_cons]
    congr 2
    omega

theorem sliceFill_eq {α β : Type} (f : α → β) (xs : List α) :
    sliceFill f xs (List.replicate xs.length none) = some (xs.map (fun x => some (f x))) := by
  have h := foldlM_sliceStore f xs []
  simp only [List.nil_append, List.length_nil, Nat.cast_zero] at h
  rw [sliceFill, h]
  rfl

/-- C14 as stated fails for `Enqueue`: on the state `NewMessageQueue()` a nil message
panics at the dereference `msg.From`, and on the zero value `MessageQueue{}`, whose map is
nil, a message with sender 1 and nonce 5 panics at the map assignment. -/
theorem C14_enqueue_panics_on_nil_message_or_map :
    EnqueueChecked (NewMessageQueue : MessageQueue Nat).raw none 0 = none ∧
    EnqueueChecked (⟨none⟩ : RawQueue Nat) (some ⟨1, 5, 0⟩) 10 = none := by
  decide

/-- C14, amended: on every `MessageQueue` value `rq`, the zero value with its nil map
included, and on every sender, nonce and stamp, `RemoveNext`, `Clear`, `ExpireBefore`,
`LargestNonce`, `Queues` and `List` run to completion, and `Enqueue` panics exactly when the
message is nil or the map is nil. On a state `mq` whose map is allocated, also one that binds
a sender to an empty queue, and a message `m` that is not nil, no check of the seven
operations fails (each access `q[0]`, `q[len(q)-1]`, `q[1:]`, each store `keys[i] = k` and
`out[i] = ...`) and the results are those of the operations. -/
theorem C14_operations_do_not_panic (rq : RawQueue Addr) (msg : Option (SignedMessage Addr))
    (mq : MessageQueue Addr) (m : SignedMessage Addr) (sender : Addr) (stamp n : Nat) :
    ((EnqueueChecked rq msg stamp = none ↔ msg = none ∨ rq.queues = none) ∧
      RemoveNextChecked rq sender n ≠ none ∧
      ClearChecked rq sender ≠ none ∧
      ExpireBeforeChecked rq stamp ≠ none ∧
      LargestNonceChecked rq sender ≠ none ∧
      QueuesChecked rq ≠ none ∧
      ListChecked rq sender ≠ none) ∧
    (EnqueueChecked mq.raw (some m) stamp =
        some ((mq.Enqueue m stamp).1.raw, (mq.Enqueue m stamp).2) ∧
      RemoveNextChecked mq.raw sender n =
        some ((mq.RemoveNext sender n).1.raw, (mq.RemoveNext sender n).2) ∧
      ClearChecked mq.raw sender = some ((mq.Clear sender).1.raw, (mq.Clear sender).2) ∧
      ExpireBeforeChecked mq.raw stamp =
        some ((mq.ExpireBefore stamp).1.raw, (mq.ExpireBefore stamp).2) ∧
      LargestNonceChecked mq.raw sender = some (mq.LargestNonce sender) ∧
      QueuesChecked mq.raw = some (mq.Queues.map some) ∧
      ListChecked mq.raw sender = some ((mq.List sender).map some)) := by
  have hallocated : ∀ (mq : MessageQueue Addr),
      EnqueueChecked mq.raw (some m) stamp =
        some ((mq.Enqueue m stamp).1.raw, (mq.Enqueue m stamp).2) ∧
      RemoveNextChecked mq.raw sender n =
        some ((mq.RemoveNext sender n).1.raw, (mq.RemoveNext sender n).2) ∧
      ClearChecked mq.raw sender = some ((mq.Clear sender).1.raw, (mq.Clear sender).2) ∧
      ExpireBeforeChecked mq.raw stamp =
        some ((mq.ExpireBefore stamp).1.raw, (mq.ExpireBefore stamp).2) ∧
      LargestNonceChecked mq.raw sender = some (mq.LargestNonce sender) ∧
      QueuesChecked mq.raw = some (mq.Queues.map some) ∧
      ListChecked mq.raw sender = some ((mq.List sender).map some) := by
    intro mq
    refine ⟨EnqueueChecked_eq mq m stamp, RemoveNextChecked_eq mq sender n, rfl, ?_,
      LargestNonceChecked_eq mq sender, ?_, ?_⟩
    · exact foldlM_expireVisitChecked stamp _ (mq, [])
    · rw [QueuesChecked, sliceFill_eq]
      simp [MessageQueue.Queues, MessageQueue.raw, rawKeys]
    · rw [ListChecked]
      simp only [sliceFill_eq, MessageQueue.List, List.map_map, MessageQueue.raw, rawGet]
      rfl
  refine ⟨?_, hallocated mq⟩
  obtain ⟨qs⟩ := rq
  cases qs with
  | none =>
    refine ⟨?_, ?_, ?_, ?_, ?_, ?_, ?_⟩
    · cases msg with
      | none => simp [EnqueueChecked]
      | some m' => simp [EnqueueChecked, rawGet, rawSet]
    · simp [RemoveNextChecked, rawGet]
    · simp [ClearChecked]
    · simp [ExpireBeforeChecked, rawKeys]
    · simp [LargestNonceChecked, rawGet]
    · simp [QueuesChecked, rawKeys, sliceFill]
    · simp [ListChecked, rawGet, sliceFill]
  | some l =>
    obtain ⟨h1, h2, h3, h4, h5, h6, h7⟩ := hallocated ⟨l⟩
    have hraw : (⟨l⟩ : MessageQueue Addr).raw = (⟨some l⟩ : RawQueue Addr) := rfl
    rw [hraw] at h2 h3 h4 h5 h6 h7
    refine ⟨?_, by rw [h2]; simp, by rw [h3]; simp, by rw [h4]; simp, by rw [h5]; simp,
      by rw [h6]; simp, by rw [h7]; simp⟩
    cases msg with
    | none => simp [EnqueueChecked]
    | some m' =>
      have := EnqueueChecked_eq (⟨l⟩ : MessageQueue Addr) m' stamp
      rw [hraw] at this
      rw [this]
      simp

/-! ## First in, first out -/

theorem enqueueAll_run (mq : MessageQueue Addr) (A : Addr) (n : Nat)
    (l : List (SignedMessage Addr × Nat))
    (hfrom : ∀ e ∈ l, e.1.From = A)
    (hnonce : l.map (fun e => e.1.Nonce) = List.range' n l.length)
    (hbound : n + l.length ≤ uint64Mod)
    (hq : mapGet mq.queues A = [] ∨
      ∃ last, (mapGet mq.queues A).getLast? = some last ∧ last.Msg.Nonce + 1 = n) :
    (enqueueAll mq l).2 = List.replicate l.length none ∧
    mapGet (enqueueAll mq l).1.queues A =
      mapGet mq.queues A ++ l.map (fun e => ⟨e.1, e.2⟩) := by
  induction l generalizing mq n with
  | nil => simp [enqueueAll]
  | cons e rest ih =>
    obtain ⟨msg, stamp⟩ := e
    have hA : msg.From = A := hfrom (msg, stamp) (List.mem_cons_self _ _)
    simp only [List.map_cons, List.length_cons, List.range'_succ, List.cons.injEq] at hnonce
    simp only [List.length_cons] at hbound
    have hstep : mq.Enqueue msg stamp =
        (⟨mapSet mq.queues msg.From (mapGet mq.queues msg.From ++ [⟨msg, stamp⟩])⟩, none) := by
      rcases hq with hnil | ⟨last, hl, hn⟩
      · rw [Enqueue_of_nil mq msg stamp (hA ▸ hnil), hA, hnil]
        rfl
      · rw [Enqueue_of_getLast mq msg stamp last (hA ▸ hl), if_neg]
        rw [not_not, hn, hnonce.1, Nat.mod_eq_of_lt (by omega)]
    have hget : mapGet (mq.Enqueue msg stamp).1.queues A =
        mapGet mq.queues A ++ [⟨msg, stamp⟩] := by
      rw [hstep, hA]
      simp [mapGet_mapSet]
    have hrec := ih (mq.Enqueue msg stamp).1 (n + 1)
      (fun e he => hfrom e (List.mem_cons_of_mem _ he)) hnonce.2 (by omega)
      (Or.inr ⟨⟨msg, stamp⟩, by rw [hget]; simp, by simp [hnonce.1]⟩)
    refine ⟨?_, ?_⟩
    · simp only [enqueueAll, hrec.1, List.replicate_succ, List.length_cons]
      rw [hstep]
    · simp only [enqueueAll]
      rw [hrec.2, hget]
      simp

theorem removeAll_run (mq : MessageQueue Addr) (A : Addr) (n : Nat)
    (q : List (QueuedMessage Addr)) (hq : mapGet mq.queues A = q)
    (hnonce : q.map (fun e => e.Msg.Nonce) = List.range' n q.length) :
    (removeAll mq A (List.range' n q.length)).2 = q.map (fun e => (some e.Msg, true, none)) ∧
    mapGet (removeAll mq A (List.range' n q.length)).1.queues A = [] := by
  induction q generalizing mq n with
  | nil => simpa [removeAll] using hq
  | cons head rest ih =>
    simp only [List.map_cons, List.length_cons, List.range'_succ, List.cons.injEq] at hnonce
    have hstep : mq.RemoveNext A n =
        (⟨mapSet mq.queues A rest⟩, some head.Msg, true, none) := by
      rw [RemoveNext_of_cons mq A n head rest hq, if_pos hnonce.1.symm]
    have hget : mapGet (mq.RemoveNext A n).1.queues A = rest := by
      rw [hstep]
      simp [mapGet_mapSet]
    have hrec := ih (mq.RemoveNext A n).1 (n + 1) hget hnonce.2
    refine ⟨?_, ?_⟩
    · simp only [List.length_cons, List.range'_succ, removeAll, hrec.1, List.map_cons]
      rw [hstep]
    · simp only [List.length_cons, List.range'_succ, removeAll]
      exact hrec.2

/-- C17: when sender `A` holds no entry and the `k ≥ 1` messages of `l` come from `A` with
the nonces `n, n+1, ..., n+k-1`, where `n + k - 1 < 2 ^ 64`, enqueueing them in turn (with
any stamps) returns no error, and then `RemoveNext(A, n)`, ..., `RemoveNext(A, n+k-1)` in
turn each return `found = true`, no error and the messages of `l` in their order, after
which `A` holds no entry. -/
theorem C17_first_in_first_out (mq : MessageQueue Addr) (A : Addr) (n : Nat)
    (l : List (SignedMessage Addr × Nat))
    (hempty : mapGet mq.queues A = [])
    (hk : 1 ≤ l.length)
    (hfrom : ∀ e ∈ l, e.1.From = A)
    (hnonce : l.map (fun e => e.1.Nonce) = List.range' n l.length)
    (hbound : n + l.length - 1 < uint64Mod) :
    (enqueueAll mq l).2 = List.replicate l.length none ∧
    (removeAll (enqueueAll mq l).1 A (List.range' n l.length)).2 =
      l.map (fun e => (some e.1, true, none)) ∧
    mapGet (removeAll (enqueueAll mq l).1 A (List.range' n l.length)).1.queues A = [] := by
  have henq := enqueueAll_run mq A n l hfrom hnonce (by omega) (Or.inl hempty)
  rw [hempty, List.nil_append] at henq
  have hrem := removeAll_run (enqueueAll mq l).1 A n _ henq.2
    (by simpa [List.map_map, Function.comp_def] using hnonce)
  simp only [List.length_map, List.map_map, Function.comp_def] at hrem
  exact ⟨henq.1, hrem.1, hrem.2⟩

/-- C17 on three messages of sender 1 with nonces 5, 6, 7 and distinct payloads. -/
theorem C17_first_in_first_out_witness :
    (enqueueAll (NewMessageQueue : MessageQueue Nat)
      [(⟨1, 5, 30⟩, 10), (⟨1, 6, 20⟩, 4), (⟨1, 7, 10⟩, 12)]).2 = [none, none, none] ∧
    (removeAll (enqueueAll (NewMessageQueue : MessageQueue Nat)
      [(⟨1, 5, 30⟩, 10), (⟨1, 6, 20⟩, 4), (⟨1, 7, 10⟩, 12)]).1 1 [5, 6, 7]).2 =
      [(some ⟨1, 5, 30⟩, true, none), (some ⟨1, 6, 20⟩, true, none),
        (some ⟨1, 7, 10⟩, true, none)] ∧
    mapGet (removeAll (enqueueAll (NewMessageQueue : MessageQueue Nat)
      [(⟨1, 5, 30⟩, 10), (⟨1, 6, 20⟩, 4), (⟨1, 7, 10⟩, 12)]).1 1 [5, 6, 7]).1.queues 1 = [] :=
  C17_first_in_first_out (NewMessageQueue : MessageQueue Nat) 1 5
    [(⟨1, 5, 30⟩, 10), (⟨1, 6, 20⟩, 4), (⟨1, 7, 10⟩, 12)]
    (by decide) (by decide) (by decide) (by decide) (by decide)

theorem getLast_of_LargestNonce (mq : MessageQueue Addr) (sender : Addr) (n : Nat)
    (h : mq.LargestNonce sender = (n, true)) :
    ∃ l, (mapGet mq.queues sender).getLast? = some l ∧ l.Msg.Nonce = n := by
  cases hl : (mapGet mq.queues sender).getLast? with
  | none =>
    rw [LargestNonce_of_nil mq sender (List.getLast?_eq_none_iff.mp hl)] at h
    simp at h
  | some l =>
    rw [LargestNonce_of_getLast mq sender l hl] at h
    exact ⟨l, rfl, (Prod.mk.inj h).1⟩

/-- C18: when `LargestNonce(sender)` returns `(n, true)`, `Enqueue` of a message from that
sender with nonce `n + 1` (the `uint64` sum) returns no error for any stamp and afterwards
`LargestNonce(sender)` returns `(n + 1, true)`; with any other nonce `Enqueue` returns an
error, and the state is left as it was. -/
theorem C18_enqueue_after_largestNonce (mq : MessageQueue Addr) (sender : Addr) (n : Nat)
    (h : mq.LargestNonce sender = (n, true))
    (msg : SignedMessage Addr) (hfrom : msg.From = sender) (stamp : Nat) :
    (msg.Nonce = (n + 1) % uint64Mod →
      (mq.Enqueue msg stamp).2 = none ∧
      (mq.Enqueue msg stamp).1.LargestNonce sender = ((n + 1) % uint64Mod, true)) ∧
    (msg.Nonce ≠ (n + 1) % uint64Mod →
      (mq.Enqueue msg stamp).2 ≠ none ∧ (mq.Enqueue msg stamp).1 = mq) := by
  obtain ⟨l, hl, hn⟩ := getLast_of_LargestNonce mq sender n h
  subst hn hfrom
  rw [Enqueue_of_getLast mq msg stamp l hl]
  constructor
  · intro hnonce
    rw [if_neg (not_not.mpr hnonce)]
    refine ⟨rfl, ?_⟩
    rw [LargestNonce_of_getLast _ msg.From ⟨msg, stamp⟩ (by simp [mapGet_mapSet]), hnonce]
  · intro hnonce
    rw [if_pos hnonce]
    exact ⟨by simp, rfl⟩

/-- C18 on the queue `[5, 6]` of sender 1: nonce 7 is accepted and `LargestNonce` becomes
`(7, true)`. -/
theorem C18_enqueue_after_largestNonce_witness :
    (run [Call.enqueue ⟨1, 5, 0⟩ 10, Call.enqueue ⟨1, 6, 0⟩ 11] :
      MessageQueue Nat).LargestNonce 1 = (6, true) ∧
    ((run [Call.enqueue ⟨1, 5, 0⟩ 10, Call.enqueue ⟨1, 6, 0⟩ 11] :
      MessageQueue Nat).Enqueue ⟨1, 7, 0⟩ 3).2 = none ∧
    ((run [Call.enqueue ⟨1, 5, 0⟩ 10, Call.enqueue ⟨1, 6, 0⟩ 11] :
      MessageQueue Nat).Enqueue ⟨1, 7, 0⟩ 3).1.LargestNonce 1 = ((6 + 1) % uint64Mod, true) :=
  ⟨by decide,
    (C18_enqueue_after_largestNonce
      (run [Call.enqueue ⟨1, 5, 0⟩ 10, Call.enqueue ⟨1, 6, 0⟩ 11] : MessageQueue Nat)
      1 6 (by decide) ⟨1, 7, 0⟩ rfl 3).1 (by decide)⟩

/-! ## `ExpireBefore` twice, and in another order -/

theorem expireFold_noop (stamp : Nat) (ks : List Addr)
    (st : MessageQueue Addr × List (Addr × List (SignedMessage Addr)))
    (h : ∀ s, staleHead stamp (mapGet st.1.queues s) = false) :
    ks.foldl (expireVisit stamp) st = st := by
  induction ks with
  | nil => rfl
  | cons k rest ih =>
    rw [List.foldl_cons, expireVisit_eq, h k]
    simpa using ih

theorem staleHead_mono (t1 t2 : Nat) (h : t2 ≤ t1) (q : List (QueuedMessage Addr))
    (hq : staleHead t1 q = false) : staleHead t2 q = false := by
  cases q with
  | nil => rfl
  | cons head rest =>
    rw [staleHead_cons] at hq ⊢
    rw [decide_eq_false_iff_not] at hq ⊢
    omega

theorem staleHead_after_ExpireBefore (mq : MessageQueue Addr) (t : Nat) (s : Addr) :
    staleHead t (mapGet (mq.ExpireBefore t).1.queues s) = false := by
  rw [ExpireBefore_queues]
  by_cases hst : staleHead t (mapGet mq.queues s) = true
  · rw [if_pos hst]
    rfl
  · rw [if_neg hst]
    simpa using hst

/-- C19: a second `ExpireBefore(t)` right after a first one returns an empty map and the
state the first call left; and `ExpireBefore(t2)` right after `ExpireBefore(t1)` with
`t2 ≤ t1` returns an empty map (and the state it was given). -/
theorem C19_expireBefore_idempotent (mq : MessageQueue Addr) (t1 : Nat) :
    (mq.ExpireBefore t1).1.ExpireBefore t1 = ((mq.ExpireBefore t1).1, []) ∧
    ∀ t2, t2 ≤ t1 →
      ((mq.ExpireBefore t1).1.ExpireBefore t2).2 = [] ∧
      ((mq.ExpireBefore t1).1.ExpireBefore t2).1 = (mq.ExpireBefore t1).1 := by
  have key : ∀ t2, t2 ≤ t1 →
      (mq.ExpireBefore t1).1.ExpireBefore t2 = ((mq.ExpireBefore t1).1, []) := by
    intro t2 h
    exact expireFold_noop t2 _ _
      (fun s => staleHead_mono t1 t2 h _ (staleHead_after_ExpireBefore mq t1 s))
  refine ⟨key t1 (Nat.le_refl t1), ?_⟩
  intro t2 h
  rw [key t2 h]
  exact ⟨rfl, rfl⟩

/-- C19 on the queues `1 ↦ [5, 6]` (stamps 10, 50) and `2 ↦ [3]` (stamp 11): after
`ExpireBefore(11)`, `ExpireBefore(9)` returns an empty map. -/
theorem C19_expireBefore_idempotent_witness :
    (((run [Call.enqueue ⟨1, 5, 0⟩ 10, Call.enqueue ⟨2, 3, 0⟩ 11,
      Call.enqueue ⟨1, 6, 0⟩ 50] : MessageQueue Nat).ExpireBefore 11).1.ExpireBefore 9).2
      = [] :=
  ((C19_expireBefore_idempotent
    (run [Call.enqueue ⟨1, 5, 0⟩ 10, Call.enqueue ⟨2, 3, 0⟩ 11,
      Call.enqueue ⟨1, 6, 0⟩ 50] : MessageQueue Nat) 11).2 9 (by decide)).1

theorem mapSet_comm {K V : Type} [DecidableEq K] (m : List (K × List V)) (a b : K)
    (u v : List V) (hab : a ≠ b) (ha : a ∈ mapKeys m) (hb : b ∈ mapKeys m) :
    mapSet (mapSet m a u) b v = mapSet (mapSet m b v) a u := by
  induction m with
  | nil => simp [mapKeys] at ha
  | cons e rest ih =>
    obtain ⟨k, w⟩ := e
    have hba : ¬ b = a := fun e => hab e.symm
    by_cases hka : k = a
    · subst hka
      simp [mapSet, hab, hba]
    · by_cases hkb : k = b
      · subst hkb
        simp [mapSet, hab, hba]
      · have ha' : a ∈ mapKeys rest := by
          simp only [mapKeys, List.map_cons, List.mem_cons] at ha
          rcases ha with ha | ha
          · exact absurd ha.symm hka
          · exact ha
        have hb' : b ∈ mapKeys rest := by
          simp only [mapKeys, List.map_cons, List.mem_cons] at hb
          rcases hb with hb | hb
          · exact absurd hb.symm hkb
          · exact hb
        simp [mapSet, hka, hkb, ih ha' hb']

theorem expireVisit_store_congr (stamp : Nat)
    (st st' : MessageQueue Addr × List (Addr × List (SignedMessage Addr)))
    (h : st.1 = st'.1) (s : Addr) :
    (expireVisit stamp st s).1 = (expireVisit stamp st' s).1 := by
  rw [expireVisit_eq, expireVisit_eq, h]
  by_cases hst : staleHead stamp (mapGet st'.1.queues s) = true
  · rw [if_pos hst, if_pos hst]
  · rw [if_neg hst, if_neg hst, h]

theorem expireVisit_store_comm (stamp : Nat)
    (st : MessageQueue Addr × List (Addr × List (SignedMessage Addr))) (a b : Addr) :
    (expireVisit stamp (expireVisit stamp st a) b).1 =
      (expireVisit stamp (expireVisit stamp st b) a).1 := by
  by_cases hab : a = b
  · subst hab
    rfl
  · have hba : ¬ b = a := fun e => hab e.symm
    have hb : mapGet (expireVisit stamp st a).1.queues b = mapGet st.1.queues b := by
      rw [expireVisit_queues]
      simp [hba]
    have ha : mapGet (expireVisit stamp st b).1.queues a = mapGet st.1.queues a := by
      rw [expireVisit_queues]
      simp [hab]
    rw [expireVisit_eq stamp (expireVisit stamp st a) b,
      expireVisit_eq stamp (expireVisit stamp st b) a, ha, hb]
    by_cases hsa : staleHead stamp (mapGet st.1.queues a) = true
    · by_cases hsb : staleHead stamp (mapGet st.1.queues b) = true
      · rw [if_pos hsa, if_pos hsb, expireVisit_eq, expireVisit_eq, if_pos hsa, if_pos hsb]
        simp only
        rw [mapSet_comm st.1.queues a b [] [] hab
          (mem_mapKeys_of_staleHead st.1 stamp a hsa)
          (mem_mapKeys_of_staleHead st.1 stamp b hsb)]
      · rw [if_pos hsa, if_neg hsb, expireVisit_eq stamp st b, if_neg hsb,
          expireVisit_eq, if_pos hsa]
    · by_cases hsb : staleHead stamp (mapGet st.1.queues b) = true
      · rw [if_neg hsa, if_pos hsb, expireVisit_eq stamp st a, if_neg hsa,
          expireVisit_eq, if_pos hsb]
      · rw [if_neg hsa, if_neg hsb, expireVisit_eq stamp st a, if_neg hsa,
          expireVisit_eq, if_neg hsb]

theorem expireFold_store_congr (stamp : Nat) (ks : List Addr)
    (st st' : MessageQueue Addr × List (Addr × List (SignedMessage Addr)))
    (h : st.1 = st'.1) :
    (ks.foldl (expireVisit stamp) st).1 = (ks.foldl (expireVisit stamp) st').1 := by
  induction ks generalizing st st' with
  | nil => exact h
  | cons k rest ih =>
    rw [List.foldl_cons, List.foldl_cons]
    exact ih _ _ (expireVisit_store_congr stamp st st' h k)

theorem expireFold_store_perm (stamp : Nat) (o1 o2 : List Addr) (hp : o1.Perm o2)
    (st st' : MessageQueue Addr × List (Addr × List (SignedMessage Addr)))
    (h : st.1 = st'.1) :
    (o1.foldl (expireVisit stamp) st).1 = (o2.foldl (expireVisit stamp) st').1 := by
  induction hp generalizing st st' with
  | nil => exact h
  | cons k _ ih =>
    rw [List.foldl_cons, List.foldl_cons]
    exact ih _ _ (expireVisit_store_congr stamp st st' h k)
  | swap a b l =>
    rw [List.foldl_cons, List.foldl_cons, List.foldl_cons, List.foldl_cons]
    apply expireFold_store_congr
    rw [expireVisit_store_comm stamp st b a]
    exact expireVisit_store_congr stamp _ _ (expireVisit_store_congr stamp st st' h a) b
  | trans _ _ ih1 ih2 =>
    exact (ih1 st st rfl).trans (ih2 st st' h)

/-- C20: for two visiting orders `o1` and `o2` of the senders of the store (two permutations
of its keys), the loop of `ExpireBefore` returns maps with the same keys and, for every
sender, the same list of messages in the same order, and it leaves the same store. -/
theorem C20_expireBefore_order_independent (mq : MessageQueue Addr) (t : Nat)
    (o1 o2 : List Addr) (h1 : o1.Perm (mapKeys mq.queues)) (h2 : o2.Perm (mapKeys mq.queues)) :
    (∀ s, s ∈ mapKeys (mq.expireIn o1 t).2 ↔ s ∈ mapKeys (mq.expireIn o2 t).2) ∧
    (∀ s, mapGet (mq.expireIn o1 t).2 s = mapGet (mq.expireIn o2 t).2 s) ∧
    (mq.expireIn o1 t).1 = (mq.expireIn o2 t).1 ∧
    (∀ s, mapGet (mq.expireIn o1 t).2 s = mapGet (mq.ExpireBefore t).2 s) ∧
    (mq.expireIn o1 t).1 = (mq.ExpireBefore t).1 := by
  have hmem : ∀ s, s ∈ o1 ↔ s ∈ o2 := fun s => (h1.trans h2.symm).mem_iff
  refine ⟨?_, ?_, ?_, ?_, ?_⟩
  · intro s
    simp only [MessageQueue.expireIn, expireFold_keys, hmem s]
  · intro s
    simp only [MessageQueue.expireIn, expireFold_expired, hmem s]
  · exact expireFold_store_perm t o1 o2 (h1.trans h2.symm) _ _ rfl
  · intro s
    exact expireIn_expired_eq mq o1 t (fun k hk => h1.mem_iff.mpr hk) s
  · exact expireFold_store_perm t o1 _ h1 _ _ rfl

/-- C20 on the queues `1 ↦ [5, 6]` and `2 ↦ [3]`, visited as `1, 2` and as `2, 1`. -/
theorem C20_expireBefore_order_independent_witness :
    [1, 2].Perm (mapKeys (run [Call.enqueue ⟨1, 5, 0⟩ 10, Call.enqueue ⟨2, 3, 0⟩ 11,
      Call.enqueue ⟨1, 6, 0⟩ 50] : MessageQueue Nat).queues) ∧
    [2, 1].Perm (mapKeys (run [Call.enqueue ⟨1, 5, 0⟩ 10, Call.enqueue ⟨2, 3, 0⟩ 11,
      Call.enqueue ⟨1, 6, 0⟩ 50] : MessageQueue Nat).queues) ∧
    ((run [Call.enqueue ⟨1, 5, 0⟩ 10, Call.enqueue ⟨2, 3, 0⟩ 11,
      Call.enqueue ⟨1, 6, 0⟩ 50] : MessageQueue Nat).expireIn [1, 2] 60).1 =
    ((run [Call.enqueue ⟨1, 5, 0⟩ 10, Call.enqueue ⟨2, 3, 0⟩ 11,
      Call.enqueue ⟨1, 6, 0⟩ 50] : MessageQueue Nat).expireIn [2, 1] 60).1 :=
  ⟨List.Perm.refl _, List.Perm.swap 1 2 [],
    (C20_expireBefore_order_independent
      (run [Call.enqueue ⟨1, 5, 0⟩ 10, Call.enqueue ⟨2, 3, 0⟩ 11,
        Call.enqueue ⟨1, 6, 0⟩ 50] : MessageQueue Nat) 60 [1, 2] [2, 1]
      (List.Perm.refl _) (List.Perm.swap 1 2 [])).2.2.1⟩

/-! ## `List` on the queue in memory -/

theorem listFold_frame (q : List Nat) (h : Heap Addr) (out : List Nat) :
    (q.foldl listVisit (h, out)).1.msgs = h.msgs ∧
    (q.foldl listVisit (h, out)).1.nextEntry = h.nextEntry + q.length ∧
    (∀ p, p < h.nextEntry → (q.foldl listVisit (h, out)).1.entries p = h.entries p) ∧
    (q.foldl listVisit (h, out)).2 = out ++ List.range' h.nextEntry q.length ∧
    (q.foldl listVisit (h, out)).1.arrays = h.arrays ∧
    (q.foldl listVisit (h, out)).1.nextArray = h.nextArray := by
  induction q generalizing h out with
  | nil => simp
  | cons qm rest ih =>
    rw [List.foldl_cons]
    obtain ⟨h1, h2, h3, h4, h5, h6⟩ := ih (listVisit (h, out) qm).1 (listVisit (h, out) qm).2
    refine ⟨h1, ?_, ?_, ?_, h5, h6⟩
    · rw [h2]
      simp only [listVisit, List.length_cons]
      omega
    · intro p hp
      rw [h3 p (by simp only [listVisit]; omega)]
      simp only [listVisit]
      rw [Function.update_noteq (by omega)]
    · rw [h4]
      simp [listVisit, List.range'_succ]

theorem listFold_entries (q : List Nat) (h : Heap Addr) (out : List Nat)
    (hq : ∀ qm ∈ q, qm < h.nextEntry) :
    (List.range' h.nextEntry q.length).map (q.foldl listVisit (h, out)).1.entries =
      q.map h.entries := by
  induction q generalizing h out with
  | nil => simp
  | cons qm rest ih =>
    rw [List.foldl_cons]
    obtain ⟨_, _, h3, _, _, _⟩ := listFold_frame rest (listVisit (h, out) qm).1
      (listVisit (h, out) qm).2
    have hrest := ih (listVisit (h, out) qm).1 (listVisit (h, out) qm).2
      (fun p hp => by
        have := hq p (List.mem_cons_of_mem _ hp)
        simp only [listVisit]
        omega)
    have hnext : (listVisit (h, out) qm).1.nextEntry = h.nextEntry + 1 := rfl
    rw [hnext] at hrest
    simp only [List.length_cons, List.range'_succ, List.map_cons, hrest]
    congr 1
    · rw [h3 h.nextEntry (by rw [hnext]; omega)]
      simp [listVisit]
    · apply List.map_congr_left
      intro p hp
      have hlt := hq p (List.mem_cons_of_mem _ hp)
      simp only [listVisit]
      rw [Function.update_noteq (by omega)]

theorem keeps_ListCopy (hq : HeapQueue Addr) (sender : Addr) :
    Keeps hq.heap (hq.ListCopy sender).1.heap := by
  obtain ⟨f1, f2, f3, f4, f5, f6⟩ :=
    listFold_frame (hq.heap.elems (sliceOf hq.queues sender)) hq.heap []
  constructor
  · exact f1
  · exact f3
  · intro a ha
    simp only [HeapQueue.ListCopy, f5, f6]
    rw [Function.update_noteq (by omega)]
  · intro p hp
    simp only [HeapQueue.ListCopy, f4, f5, f6, Function.update_same, List.nil_append] at hp
    obtain ⟨i, _, hi⟩ := List.mem_range'.mp hp
    omega
  · simp only [HeapQueue.ListCopy, f2]
    omega

theorem keeps_setElem (h h' : Heap Addr) (out : Slice) (i p : Nat) (hk : Keeps h h')
    (hout : out.array = h.nextArray) (hp : h.nextEntry ≤ p) :
    Keeps h (h'.setElem out i p) := by
  unfold Heap.setElem
  by_cases hi : i < out.len
  · rw [if_pos hi]
    constructor
    · exact hk.msgs
    · exact hk.entries
    · intro a ha
      simp only
      rw [Function.update_noteq (by omega)]
      exact hk.arrays a ha
    · intro x hx
      rw [← hout] at hx
      simp only [Function.update_same] at hx
      rcases List.mem_or_eq_of_mem_set hx with hx | hx
      · exact hk.fresh x (hout ▸ hx)
      · omega
    · exact hk.next
  · rw [if_neg hi]
    exact hk

theorem elem_fresh (h h' : Heap Addr) (out : Slice) (i p : Nat) (hk : Keeps h h')
    (hout : out.array = h.nextArray) (he : h'.elem out i = some p) : h.nextEntry ≤ p := by
  unfold Heap.elem at he
  by_cases hi : i < out.len
  · rw [if_pos hi, hout] at he
    exact hk.fresh p (List.getElem?_mem he)
  · rw [if_neg hi] at he
    exact absurd he (by simp)

theorem keeps_callerWrite (h h' : Heap Addr) (out : Slice) (w : CallerWrite Addr)
    (hk : Keeps h h') (hout : out.array = h.nextArray) (hw : w.onRecord = true) :
    Keeps h (h'.callerWrite out w) := by
  cases w with
  | swap i j =>
    simp only [Heap.callerWrite]
    cases hi : h'.elem out i with
    | none => exact hk
    | some a =>
      cases hj : h'.elem out j with
      | none => exact hk
      | some b =>
        exact keeps_setElem h _ out j a
          (keeps_setElem h h' out i b hk hout (elem_fresh h h' out j b hk hout hj)) hout
          (elem_fresh h h' out i a hk hout hi)
  | replace i m v =>
    simp only [Heap.callerWrite]
    by_cases hi : i < out.len
    · rw [if_pos hi]
      apply keeps_setElem h _ out i h'.nextEntry _ hout hk.next
      constructor
      · exact hk.msgs
      · intro p hp
        simp only
        rw [Function.update_noteq (by have := hk.next; omega)]
        exact hk.entries p hp
      · exact hk.arrays
      · exact hk.fresh
      · have := hk.next
        simp only
        omega
    · rw [if_neg hi]
      exact hk
  | stamp i v =>
    simp only [Heap.callerWrite]
    cases hi : h'.elem out i with
    | none => exact hk
    | some p =>
      have hp := elem_fresh h h' out i p hk hout hi
      constructor
      · exact hk.msgs
      · intro x hx
        simp only
        rw [Function.update_noteq (by omega)]
        exact hk.entries x hx
      · exact hk.arrays
      · exact hk.fresh
      · exact hk.next
  | msg i m =>
    simp only [Heap.callerWrite]
    cases hi : h'.elem out i with
    | none => exact hk
    | some p =>
      have hp := elem_fresh h h' out i p hk hout hi
      constructor
      · exact hk.msgs
      · intro x hx
        simp only
        rw [Function.update_noteq (by omega)]
        exact hk.entries x hx
      · exact hk.arrays
      · exact hk.fresh
      · exact hk.next
  | viaMsg i v => simp [CallerWrite.onRecord] at hw

theorem keeps_foldl_callerWrite (h h' : Heap Addr) (out : Slice) (ws : List (CallerWrite Addr))
    (hk : Keeps h h') (hout : out.array = h.nextArray)
    (hws : ∀ w ∈ ws, w.onRecord = true) :
    Keeps h (ws.foldl (fun g w => g.callerWrite out w) h') := by
  induction ws generalizing h' with
  | nil => exact hk
  | cons w rest ih =>
    rw [List.foldl_cons]
    exact ih _ (keeps_callerWrite h h' out w hk hout (hws w (List.mem_cons_self _ _)))
      (fun w' hw' => hws w' (List.mem_cons_of_mem _ hw'))

theorem view_of_keeps (hq : HeapQueue Addr) (h' : Heap Addr) (hv : hq.Valid)
    (hk : Keeps hq.heap h') : (⟨h', hq.queues⟩ : HeapQueue Addr).view = hq.view := by
  simp only [HeapQueue.view, MessageQueue.mk.injEq]
  apply List.map_congr_left
  intro e he
  obtain ⟨ha, hp⟩ := hv e he
  have helems : h'.elems e.2 = hq.heap.elems e.2 := by
    simp only [Heap.elems, hk.arrays _ ha]
  simp only [Prod.mk.injEq, true_and, helems]
  apply List.map_congr_left
  intro p hpe
  simp only [Heap.load, hk.msgs, hk.entries p (hp p hpe)]

theorem mapGet_view (hq : HeapQueue Addr) (s : Addr) :
    mapGet hq.view.queues s = (hq.heap.elems (sliceOf hq.queues s)).map hq.heap.load := by
  simp only [HeapQueue.view]
  induction hq.queues with
  | nil => simp [mapGet, sliceOf, Heap.elems]
  | cons e rest ih =>
    obtain ⟨k, v⟩ := e
    by_cases hk : k = s
    · simp [mapGet, sliceOf, hk]
    · simp [mapGet, sliceOf, hk, ih]

theorem elems_sliceOf_valid (h : Heap Addr) (m : List (Addr × Slice)) (N : Nat)
    (hv : ∀ e ∈ m, ∀ p ∈ h.elems e.2, p < N) (s : Addr) :
    ∀ p ∈ h.elems (sliceOf m s), p < N := by
  induction m with
  | nil => simp [sliceOf, Heap.elems]
  | cons e rest ih =>
    obtain ⟨k, v⟩ := e
    by_cases hk : k = s
    · simp only [sliceOf, hk, if_true]
      exact hv (k, v) (List.mem_cons_self _ _)
    · simp only [sliceOf, hk, if_false]
      exact ih (fun e he => hv e (List.mem_cons_of_mem _ he))

theorem elems_ListCopy (hq : HeapQueue Addr) (sender : Addr) :
    (hq.ListCopy sender).1.heap.elems (hq.ListCopy sender).2 =
      List.range' hq.heap.nextEntry (hq.heap.elems (sliceOf hq.queues sender)).length := by
  simp only [HeapQueue.ListCopy]
  generalize hq.heap.elems (sliceOf hq.queues sender) = q
  obtain ⟨_, _, _, f4, _, f6⟩ := listFold_frame q hq.heap []
  rw [Heap.elems]
  simp only [f4, List.nil_append, List.drop_zero, List.length_range']
  rw [← f6, Function.update_same]
  exact List.take_of_length_le (by simp)

/-- C15 as stated fails for the message an entry refers to: `List` copies the
`QueuedMessage` record, with its `Msg` pointer, and not the message. On the queue holding one
message of sender 1 with nonce 5, the write `*out[0].Msg = v` through the slice `out`
returned by `List(1)`, with `v` a message of nonce 99, changes what `LargestNonce(1)`
returns. -/
theorem C15_write_through_listed_msg_reaches_queue :
    ¬ ∀ (hq : HeapQueue Nat) (sender : Nat) (ws : List (CallerWrite Nat)),
        hq.Valid →
        ((hq.ListCopy sender).1.afterWrites (hq.ListCopy sender).2 ws).view.LargestNonce
          sender = hq.view.LargestNonce sender := by
  intro h
  have h2 := h ⟨⟨fun _ => ⟨1, 5, 0⟩, fun _ => (0, 10), 1, fun _ => [0], 1⟩, [(1, ⟨0, 0, 1⟩)]⟩
    1 [CallerWrite.viaMsg 0 ⟨1, 99, 0⟩] (by unfold HeapQueue.Valid; decide)
  revert h2
  decide

/-- C15, amended: on a queue whose arrays and records are allocated, `List(sender)` leaves
the queues as they were and returns a slice over a new array of new records: no queue shares
the array or a record with it. Record by record the copy holds the `Msg` pointer and the
stamp of the queued entry, so it refers to the same message, and it reads as `List(sender)`
of the value-level queue. After any sequence of writes of the caller to the returned slice
and its records (reordering elements, replacing an element by a new record, assigning to
`Stamp` or `Msg` of an element; not a write to a message) the queues are as they were, and a
later `List`, `LargestNonce` and `RemoveNext` return what they would have returned. -/
theorem C15_list_returns_fresh_records (hq : HeapQueue Addr) (hv : hq.Valid) (sender : Addr)
    (ws : List (CallerWrite Addr)) (hws : ∀ w ∈ ws, w.onRecord = true) :
    (hq.ListCopy sender).1.view = hq.view ∧
    ((hq.ListCopy sender).1.heap.elems (hq.ListCopy sender).2).map
        (hq.ListCopy sender).1.heap.entries =
      (hq.heap.elems (sliceOf hq.queues sender)).map hq.heap.entries ∧
    ((hq.ListCopy sender).1.heap.elems (hq.ListCopy sender).2).map
        (hq.ListCopy sender).1.heap.load = hq.view.List sender ∧
    (∀ e ∈ hq.queues, e.2.array ≠ (hq.ListCopy sender).2.array ∧
      ∀ p ∈ (hq.ListCopy sender).1.heap.elems (hq.ListCopy sender).2,
        p ∉ hq.heap.elems e.2) ∧
    ((hq.ListCopy sender).1.afterWrites (hq.ListCopy sender).2 ws).view = hq.view ∧
    (∀ s n,
      ((hq.ListCopy sender).1.afterWrites (hq.ListCopy sender).2 ws).view.List s =
        hq.view.List s ∧
      ((hq.ListCopy sender).1.afterWrites (hq.ListCopy sender).2 ws).view.LargestNonce s =
        hq.view.LargestNonce s ∧
      (((hq.ListCopy sender).1.afterWrites (hq.ListCopy sender).2 ws).view.RemoveNext s n).2 =
        (hq.view.RemoveNext s n).2) := by
  obtain ⟨f1, _, f3, _, _, _⟩ :=
    listFold_frame (hq.heap.elems (sliceOf hq.queues sender)) hq.heap []
  have hvs : ∀ p ∈ hq.heap.elems (sliceOf hq.queues sender), p < hq.heap.nextEntry :=
    elems_sliceOf_valid hq.heap hq.queues _ (fun e he => (hv e he).2) sender
  have hk := keeps_ListCopy hq sender
  have hqueues : (hq.ListCopy sender).1.queues = hq.queues := rfl
  have hentries : ((hq.ListCopy sender).1.heap.elems (hq.ListCopy sender).2).map
      (hq.ListCopy sender).1.heap.entries =
      (hq.heap.elems (sliceOf hq.queues sender)).map hq.heap.entries := by
    rw [elems_ListCopy]
    exact listFold_entries _ hq.heap [] hvs
  have hview : ((hq.ListCopy sender).1.afterWrites (hq.ListCopy sender).2 ws).view =
      hq.view :=
    view_of_keeps hq _ hv (keeps_foldl_callerWrite hq.heap _ _ ws hk rfl hws)
  refine ⟨view_of_keeps hq _ hv hk, hentries, ?_, ?_, hview, ?_⟩
  · have hload : ∀ (g : Heap Addr) (l : List Nat),
        l.map g.load = (l.map g.entries).map (fun r => ⟨g.msgs r.1, r.2⟩) := by
      intro g l
      simp [Heap.load, Function.comp_def]
    rw [hload, hentries, hk.msgs, ← hload]
    simp [MessageQueue.List, mapGet_view]
  · intro e he
    obtain ⟨ha, hp⟩ := hv e he
    refine ⟨?_, ?_⟩
    · simp only [HeapQueue.ListCopy]
      omega
    · intro p hmem hmem'
      rw [elems_ListCopy] at hmem
      obtain ⟨i, _, hi⟩ := List.mem_range'.mp hmem
      have := hp p hmem'
      omega
  · intro s n
    rw [hview]
    exact ⟨rfl, rfl, rfl⟩

/-- C15, amended, on the queue holding one message of sender 1 (nonce 5, stamp 10): after
`List(1)` and the writes `out[0].Stamp = 77`, `out[0].Msg = 3`, `out[0] = &QueuedMessage{}`
the queue is as it was. -/
theorem C15_list_returns_fresh_records_witness :
    (⟨⟨fun _ => ⟨1, 5, 0⟩, fun _ => (0, 10), 1, fun _ => [0], 1⟩, [(1, ⟨0, 0, 1⟩)]⟩ :
      HeapQueue Nat).Valid ∧
    (∀ w ∈ ([CallerWrite.stamp 0 77, CallerWrite.msg 0 3, CallerWrite.replace 0 0 0] :
      List (CallerWrite Nat)), w.onRecord = true) ∧
    (((⟨⟨fun _ => ⟨1, 5, 0⟩, fun _ => (0, 10), 1, fun _ => [0], 1⟩, [(1, ⟨0, 0, 1⟩)]⟩ :
      HeapQueue Nat).ListCopy 1).1.afterWrites
        ((⟨⟨fun _ => ⟨1, 5, 0⟩, fun _ => (0, 10), 1, fun _ => [0], 1⟩, [(1, ⟨0, 0, 1⟩)]⟩ :
          HeapQueue Nat).ListCopy 1).2
        [CallerWrite.stamp 0 77, CallerWrite.msg 0 3, CallerWrite.replace 0 0 0]).view =
      (⟨⟨fun _ => ⟨1, 5, 0⟩, fun _ => (0, 10), 1, fun _ => [0], 1⟩, [(1, ⟨0, 0, 1⟩)]⟩ :
        HeapQueue Nat).view :=
  ⟨by unfold HeapQueue.Valid; decide, by decide,
    (C15_list_returns_fresh_records
      (⟨⟨fun _ => ⟨1, 5, 0⟩, fun _ => (0, 10), 1, fun _ => [0], 1⟩, [(1, ⟨0, 0, 1⟩)]⟩ :
        HeapQueue Nat)
      (by unfold HeapQueue.Valid; decide) 1
      [CallerWrite.stamp 0 77, CallerWrite.msg 0 3, CallerWrite.replace 0 0 0]
      (by decide)).2.2.2.2.1⟩
